import Mathlib

/-!
Verification of the pixel-grid editing engine of the drawpad repository.

The engine under verification is the zustand pixel store (file src/App.tsx,
second module: updatePixels, saveHistory, undo, redo, resizeCanvas) together
with the canvas component algorithms (file src/components/PixelCanvas.tsx,
first variant: getPixelCoords, collectPixels, collectBrushPixels, drawLine,
floodFill, handleMouseDown, handleMouseMove, handleMouseUp).

Modelling conventions:
- A JS Map with string keys of the form "col,row" is modelled as an
  association list over keys of type Int x Int (the string encoding of an
  integer pair is injective, so the pair itself is the faithful key).
  JS Map.set updates an existing key in place or appends a new binding at
  the end; Map.delete removes the binding; these are mapSet and mapDelete.
- PixelData { x, y, color } is a structure with Int pixel offsets and a
  String color.
- JS numbers appearing here are integers throughout the modelled code
  (grid coordinates, pixel offsets, Bresenham state), so Int is used.
  Math.floor of a real division by a positive integer is Int.fdiv.
- The expression "pixels.get(key)?.color || null" coerces a missing entry
  AND the empty-string color to null; colorAt models exactly that.
-/

namespace DrawPad

/-- Cell identity: integer grid coordinates (col, row). -/
abbrev Key := Int × Int

/-- PixelData record from the store: pixel offsets and a color string. -/
structure PixelData where
  x : Int
  y : Int
  color : String
  deriving Repr, DecidableEq

/-- The sparse raster: a JS Map from cell key to PixelData, modelled as an
association list (insertion order preserved, at most one binding per key in
every map the program builds). -/
abbrev PixelMap := List (Key × PixelData)

/-- Map.get: the value bound to a key, if any. -/
def mapGet (m : PixelMap) (k : Key) : Option PixelData :=
  match m with
  | [] => none
  | e :: rest => if e.1 = k then some e.2 else mapGet rest k

/-- Map.set: overwrite the binding in place if the key is present, else
append a new binding at the end. -/
def mapSet (m : PixelMap) (k : Key) (v : PixelData) : PixelMap :=
  if m.any (fun e => e.1 = k) then
    m.map (fun e => if e.1 = k then (k, v) else e)
  else m ++ [(k, v)]

/-- Map.delete: remove the binding for a key. -/
def mapDelete (m : PixelMap) (k : Key) : PixelMap :=
  m.filter (fun e => ¬ e.1 = k)

theorem mapGet_append (m₁ m₂ : PixelMap) (k : Key) :
    mapGet (m₁ ++ m₂) k = (mapGet m₁ k).orElse (fun _ => mapGet m₂ k) := by
  induction m₁ with
  | nil => simp [mapGet, Option.orElse]
  | cons e rest ih =>
    by_cases h : e.1 = k <;> simp [mapGet, h, ih, Option.orElse]

theorem mapGet_eq_none_of_not_any (m : PixelMap) (k : Key)
    (h : ¬ m.any (fun e => e.1 = k) = true) : mapGet m k = none := by
  induction m with
  | nil => rfl
  | cons e rest ih =>
    simp only [List.any_cons, Bool.or_eq_true, decide_eq_true_eq] at h
    push_neg at h
    simp [mapGet, h.1, ih (by simpa using h.2)]

theorem mapGet_map_overwrite (m : PixelMap) (k k' : Key) (v : PixelData)
    (hne : ¬ k' = k) :
    mapGet (m.map (fun e => if e.1 = k then (k, v) else e)) k' = mapGet m k' := by
  induction m with
  | nil => rfl
  | cons e rest ih =>
    by_cases hek : e.1 = k
    · have h1 : ¬ k = k' := fun h => hne h.symm
      simp [mapGet, hek, h1, fun h => hne (hek ▸ h.symm : (k:Key) = k'), ih]
    · by_cases he' : e.1 = k'
      · simp [mapGet, hek, he', hne]
      · simp [mapGet, hek, he', ih]

theorem mapGet_map_overwrite_self (m : PixelMap) (k : Key) (v : PixelData)
    (hmem : m.any (fun e => e.1 = k) = true) :
    mapGet (m.map (fun e => if e.1 = k then (k, v) else e)) k = some v := by
  induction m with
  | nil => simp at hmem
  | cons e rest ih =>
    by_cases hek : e.1 = k
    · simp [mapGet, hek]
    · simp only [List.any_cons, Bool.or_eq_true, decide_eq_true_eq] at hmem
      rcases hmem with h | hrest
      · exact absurd h hek
      · simp [mapGet, hek, ih hrest]

theorem mapGet_mapSet (m : PixelMap) (k k' : Key) (v : PixelData) :
    mapGet (mapSet m k v) k' = if k' = k then some v else mapGet m k' := by
  unfold mapSet
  by_cases hmem : m.any (fun e => e.1 = k)
  · rw [if_pos hmem]
    by_cases hk' : k' = k
    · subst hk'
      rw [mapGet_map_overwrite_self m k' v hmem, if_pos rfl]
    · rw [mapGet_map_overwrite m k k' v hk', if_neg hk']
  · rw [if_neg hmem, mapGet_append]
    by_cases hk' : k' = k
    · subst hk'
      rw [mapGet_eq_none_of_not_any m k' hmem]
      simp [mapGet, Option.orElse]
    · rw [if_neg hk']
      cases hm : mapGet m k' with
      | none =>
        have h2 : ¬ ((k, v) : Key × PixelData).1 = k' := fun h => hk' h.symm
        simp [Option.orElse, mapGet, h2]
      | some v' => simp [Option.orElse]

theorem mapGet_mapDelete (m : PixelMap) (k k' : Key) :
    mapGet (mapDelete m k) k' = if k' = k then none else mapGet m k' := by
  induction m with
  | nil => simp [mapDelete, mapGet]
  | cons e rest ih =>
    by_cases hek : e.1 = k
    · have hd : mapDelete (e :: rest) k = mapDelete rest k := by
        simp [mapDelete, List.filter_cons, hek]
      rw [hd, ih]
      by_cases hk' : k' = k
      · simp [hk']
      · have h1 : ¬ e.1 = k' := by rw [hek]; exact fun h => hk' h.symm
        simp [mapGet, hk', h1]
    · have hd : mapDelete (e :: rest) k = e :: mapDelete rest k := by
        simp [mapDelete, List.filter_cons, hek]
      rw [hd]
      by_cases he' : e.1 = k'
      · have h1 : ¬ k' = k := fun h => hek (by rw [he', h])
        simp [mapGet, he', h1]
      · simp [mapGet, he', ih]

/-- One entry of an updates map: a key bound either to new pixel data or to
null (deletion), as built by collectPixels and floodFill. The JS updates Map
is modelled as a list applied in order; for a repeated key the last binding
wins, exactly as iterating the deduplicating JS Map does. -/
abbrev Update := Key × Option PixelData

/-- Apply one update to the raster: null deletes, otherwise set. -/
def applyUpdate (m : PixelMap) (u : Update) : PixelMap :=
  match u.2 with
  | none => mapDelete m u.1
  | some v => mapSet m u.1 v

/-- updatePixels of the store, acting on the raw raster: apply a batch of
updates in order. -/
def applyUpdates (m : PixelMap) (us : List Update) : PixelMap :=
  us.foldl applyUpdate m

/-- The last binding for a key in an updates list, if any. -/
def updLast : List Update → Key → Option (Option PixelData)
  | [], _ => none
  | u :: rest, k =>
    match updLast rest k with
    | some r => some r
    | none => if u.1 = k then some u.2 else none

theorem updLast_append_single (us : List Update) (u : Update) (k : Key) :
    updLast (us ++ [u]) k =
      if u.1 = k then some u.2 else updLast us k := by
  induction us with
  | nil =>
    by_cases h : u.1 = k <;> simp [updLast, h]
  | cons w rest ih =>
    have hc : updLast ((w :: rest) ++ [u]) k =
        match updLast (rest ++ [u]) k with
        | some r => some r
        | none => if w.1 = k then some w.2 else none := rfl
    rw [hc, ih]
    by_cases h : u.1 = k
    · simp [h]
    · rw [if_neg h]
      cases hr : updLast rest k <;> simp [updLast, hr, h]

theorem mapGet_applyUpdates (m : PixelMap) (us : List Update) (k : Key) :
    mapGet (applyUpdates m us) k =
      match updLast us k with
      | some (some v) => some v
      | some none => none
      | none => mapGet m k := by
  induction us generalizing m with
  | nil => simp [applyUpdates, updLast]
  | cons u rest ih =>
    have step : applyUpdates m (u :: rest) = applyUpdates (applyUpdate m u) rest := rfl
    have hc : updLast (u :: rest) k =
        match updLast rest k with
        | some r => some r
        | none => if u.1 = k then some u.2 else none := rfl
    rw [step, ih, hc]
    cases hrest : updLast rest k with
    | some r => cases r <;> rfl
    | none =>
      by_cases hk : u.1 = k
      · cases hv : u.2 with
        | none => simp [applyUpdate, hv, hk, mapGet_mapDelete]
        | some v => simp [applyUpdate, hv, hk, mapGet_mapSet]
      · have h2 : ¬ k = u.1 := fun h => hk h.symm
        cases hv : u.2 with
        | none =>
          simp [applyUpdate, hv, mapGet_mapDelete, hk, h2]
        | some v =>
          simp [applyUpdate, hv, mapGet_mapSet, hk, h2]

/-- State of the zustand pixel store, restricted to the fields the history
and raster logic reads and writes (pixels, history, historyIndex). -/
structure StoreState where
  pixels : PixelMap
  history : List PixelMap
  historyIndex : Nat
  deriving Repr, DecidableEq

/-- Initial store state: empty raster, a single empty snapshot, index 0. -/
def initialStore : StoreState := { pixels := [], history := [[]], historyIndex := 0 }

/-- updatePixels of the store: batch-apply updates to the pixels map. -/
def updatePixelsStore (s : StoreState) (us : List Update) : StoreState :=
  { s with pixels := applyUpdates s.pixels us }

/-- The duplicate-state check of saveHistory: the snapshot at the current
index has the same size as the candidate and every candidate entry has a
binding of the same color there (the loop over currentPixels with its
early-exit flag). -/
def sameSnapshot (cur p : PixelMap) : Bool :=
  cur.length == p.length &&
  p.all (fun kv =>
    match mapGet cur kv.1 with
    | some v => v.color == kv.2.color
    | none => false)

/-- True when saveHistory would return without pushing: the comparison is
only attempted when history[historyIndex] exists. -/
def saveSkips (s : StoreState) (arg : Option PixelMap) : Bool :=
  match s.history[s.historyIndex]? with
  | some cur => sameSnapshot cur (arg.getD s.pixels)
  | none => false

/-- History cap of saveHistory. -/
def MAX_HISTORY : Nat := 50

/-- saveHistory of the store: optional explicit pixels argument, duplicate
check against the snapshot at the current index, truncation of the redo
branch, append, and eviction of the oldest snapshot past the cap. -/
def saveHistory (s : StoreState) (arg : Option PixelMap) : StoreState :=
  let currentPixels := arg.getD s.pixels
  if saveSkips s arg then s
  else
    let newHistory := s.history.take (s.historyIndex + 1) ++ [currentPixels]
    let newIndex := newHistory.length - 1
    if MAX_HISTORY < newHistory.length then
      { s with history := newHistory.drop 1, historyIndex := newIndex - 1 }
    else
      { s with history := newHistory, historyIndex := newIndex }

/-- undo of the store: when the index is positive, step back and load that
snapshot into pixels; otherwise a no-op returning null. An out-of-range
read of history yields the empty map, as new Map(undefined) does. -/
def undo (s : StoreState) : StoreState × Option PixelMap :=
  if 0 < s.historyIndex then
    let newIndex := s.historyIndex - 1
    let prev := s.history[newIndex]?.getD []
    ({ s with pixels := prev, historyIndex := newIndex }, some prev)
  else (s, none)

/-- redo of the store: when the index is before the last snapshot, step
forward and load that snapshot; otherwise a no-op returning null. -/
def redo (s : StoreState) : StoreState × Option PixelMap :=
  if s.historyIndex + 1 < s.history.length then
    let newIndex := s.historyIndex + 1
    let nxt := s.history[newIndex]?.getD []
    ({ s with pixels := nxt, historyIndex := newIndex }, some nxt)
  else (s, none)

/-- canUndo of the store. -/
def canUndo (s : StoreState) : Bool := 0 < s.historyIndex

/-- canRedo of the store. -/
def canRedo (s : StoreState) : Bool := s.historyIndex + 1 < s.history.length

/-- clear of the store: empty raster and a single empty snapshot. -/
def clear (s : StoreState) : StoreState :=
  { s with pixels := [], history := [[]], historyIndex := 0 }

/-- Cell-for-cell agreement of the keys and colors of two rasters, the
sense in which undo restores a previous state. -/
def SameCells (a b : PixelMap) : Prop :=
  ∀ k : Key, (mapGet a k).map PixelData.color = (mapGet b k).map PixelData.color

/-- Committing one edit: the raster becomes p (the net effect of a stroke,
fill or import) and saveHistory is called with no argument. -/
def commitEdit (s : StoreState) (p : PixelMap) : StoreState :=
  saveHistory { s with pixels := p } none

/-- A sequence of committed edits. -/
def runEdits (s : StoreState) (es : List PixelMap) : StoreState :=
  es.foldl commitEdit s

/-- Every edit of the sequence differs in content from the snapshot at the
current index at the moment it is applied, so each saveHistory call pushes. -/
def AllCommit : StoreState → List PixelMap → Prop
  | _, [] => True
  | s, p :: ps =>
      saveSkips { s with pixels := p } none = false ∧ AllCommit (commitEdit s p) ps

instance : ∀ s es, Decidable (AllCommit s es) := fun s es => by
  induction es generalizing s with
  | nil => exact isTrue trivial
  | cons p ps ih => exact @instDecidableAnd _ _ _ (ih (commitEdit s p))

theorem saveHistory_length_le (s : StoreState) (arg : Option PixelMap)
    (h : s.history.length ≤ MAX_HISTORY) :
    (saveHistory s arg).history.length ≤ MAX_HISTORY := by
  unfold saveHistory
  by_cases hs : saveSkips s arg
  · rw [if_pos hs]; exact h
  · rw [if_neg (by simp [hs])]
    have htake : (s.history.take (s.historyIndex + 1)).length ≤ s.history.length := by
      rw [List.length_take]; omega
    dsimp only
    split
    · next hcap =>
      dsimp only
      simp only [List.length_drop, List.length_append, List.length_singleton] at hcap ⊢
      omega
    · next hcap =>
      dsimp only
      simp only [Nat.not_lt, List.length_append, List.length_singleton] at hcap ⊢
      omega

theorem saveHistory_index_last (s : StoreState) (arg : Option PixelMap)
    (h : saveSkips s arg = false) :
    (saveHistory s arg).historyIndex = (saveHistory s arg).history.length - 1 := by
  unfold saveHistory
  rw [if_neg (by simp [h])]
  dsimp only
  split
  · dsimp only
    simp only [List.length_drop]
  · dsimp only

/-- Claim C2 -- History bound: for every sequence of committed edits whose
contents each differ from the snapshot at the current index, the history
length never exceeds MAX_HISTORY = 50, and after every such commit the
index points at the most recent snapshot (length - 1). Every intermediate
point of a longer run is itself an instance of this statement. -/
theorem history_bound_and_index (es : List PixelMap) (s : StoreState)
    (hlen : s.history.length ≤ MAX_HISTORY) (hall : AllCommit s es) :
    (runEdits s es).history.length ≤ MAX_HISTORY ∧
      (es ≠ [] →
        (runEdits s es).historyIndex = (runEdits s es).history.length - 1) := by
  induction es generalizing s with
  | nil => exact ⟨hlen, fun hne => absurd rfl hne⟩
  | cons p ps ih =>
    obtain ⟨hskip, hrest⟩ := hall
    have hstep : (commitEdit s p).history.length ≤ MAX_HISTORY :=
      saveHistory_length_le _ _ hlen
    have hrun : runEdits s (p :: ps) = runEdits (commitEdit s p) ps := rfl
    cases ps with
    | nil =>
      refine ⟨by simpa [runEdits] using hstep, fun _ => ?_⟩
      simpa [runEdits, commitEdit] using saveHistory_index_last _ none hskip
    | cons q qs =>
      obtain ⟨hl, hi⟩ := ih (commitEdit s p) hstep hrest
      exact ⟨by simpa [hrun] using hl, fun _ => by simpa [hrun] using hi (by simp)⟩

/-- Witness for C2 at a concrete run of three distinct edits. -/
theorem history_bound_and_index_witness :
    (initialStore.history.length ≤ MAX_HISTORY ∧
        AllCommit initialStore
          [[((0, 0), ⟨0, 0, "#ff0000"⟩)], [((1, 0), ⟨20, 0, "#00ff00"⟩)], []]) ∧
      ((runEdits initialStore
            [[((0, 0), ⟨0, 0, "#ff0000"⟩)], [((1, 0), ⟨20, 0, "#00ff00"⟩)], []]).history.length ≤
          MAX_HISTORY ∧
        ([[((0, 0), ⟨0, 0, "#ff0000"⟩)], [((1, 0), ⟨20, 0, "#00ff00"⟩)], []] ≠
            ([] : List PixelMap) →
          (runEdits initialStore
                [[((0, 0), ⟨0, 0, "#ff0000"⟩)], [((1, 0), ⟨20, 0, "#00ff00"⟩)], []]).historyIndex =
            (runEdits initialStore
                  [[((0, 0), ⟨0, 0, "#ff0000"⟩)], [((1, 0), ⟨20, 0, "#00ff00"⟩)],
                    []]).history.length -
              1)) :=
  ⟨⟨by decide, by decide⟩,
    history_bound_and_index _ initialStore (by decide) (by decide)⟩

/-- Claim C1 -- Undo/redo round-trip: from a store at rest (the snapshot at
the current index agrees cell-for-cell with the live raster), an edit whose
net raster p' differs in content from that snapshot commits; undo then
restores the pre-edit raster exactly (cell-for-cell keys and colors), and a
subsequent redo restores p' exactly. -/
theorem undo_redo_round_trip (s : StoreState) (cur p' : PixelMap)
    (hcur : s.history[s.historyIndex]? = some cur)
    (hinv : SameCells cur s.pixels)
    (hcommit : sameSnapshot cur p' = false) :
    SameCells (undo (saveHistory { s with pixels := p' } none)).1.pixels s.pixels ∧
      (redo (undo (saveHistory { s with pixels := p' } none)).1).1.pixels = p' := by
  have hi : s.historyIndex < s.history.length := by
    by_contra hc
    rw [List.getElem?_eq_none (by omega)] at hcur
    cases hcur
  have hskip : saveSkips { s with pixels := p' } none = false := by
    unfold saveSkips
    dsimp only
    rw [hcur]
    exact hcommit
  have htl : (s.history.take (s.historyIndex + 1)).length = s.historyIndex + 1 := by
    rw [List.length_take]; omega
  have hs1len : (s.history.take (s.historyIndex + 1) ++ [p']).length
      = s.historyIndex + 2 := by
    simp [htl]
  have hget_take : (s.history.take (s.historyIndex + 1))[s.historyIndex]? = some cur := by
    rw [List.getElem?_take_of_lt (by omega)]; exact hcur
  by_cases hcap : MAX_HISTORY < s.historyIndex + 2
  · have hs1 : saveHistory { s with pixels := p' } none =
        { pixels := p',
          history := (s.history.take (s.historyIndex + 1) ++ [p']).drop 1,
          historyIndex := s.historyIndex } := by
      unfold saveHistory
      rw [if_neg (by simp [hskip])]
      dsimp only [Option.getD]
      rw [hs1len, if_pos hcap]
      congr 1
    have hipos : 0 < s.historyIndex := by
      have : MAX_HISTORY = 50 := rfl
      omega
    have hlen1 : ((s.history.take (s.historyIndex + 1) ++ [p']).drop 1).length
        = s.historyIndex + 1 := by
      rw [List.length_drop, hs1len]
      omega
    have hprev : ((s.history.take (s.historyIndex + 1) ++ [p']).drop 1)[s.historyIndex - 1]?
        = some cur := by
      rw [List.getElem?_drop]
      have h1 : 1 + (s.historyIndex - 1) = s.historyIndex := by omega
      rw [h1, List.getElem?_append_left (by omega), hget_take]
    have hu : undo (saveHistory { s with pixels := p' } none) =
        ({ pixels := cur,
           history := (s.history.take (s.historyIndex + 1) ++ [p']).drop 1,
           historyIndex := s.historyIndex - 1 }, some cur) := by
      rw [hs1]
      unfold undo
      rw [if_pos (by exact hipos)]
      dsimp only
      rw [hprev]
      rfl
    have hnxt : ((s.history.take (s.historyIndex + 1) ++ [p']).drop 1)[s.historyIndex - 1 + 1]?
        = some p' := by
      rw [List.getElem?_drop]
      have h1 : 1 + (s.historyIndex - 1 + 1) = s.historyIndex + 1 := by omega
      rw [h1, List.getElem?_append_right (by omega), htl]
      simp
    refine ⟨?_, ?_⟩
    · rw [hu]; exact hinv
    · rw [hu]
      unfold redo
      rw [if_pos (by dsimp only; omega)]
      dsimp only
      rw [hnxt]
      rfl
  · have hs1 : saveHistory { s with pixels := p' } none =
        { pixels := p',
          history := s.history.take (s.historyIndex + 1) ++ [p'],
          historyIndex := s.historyIndex + 1 } := by
      unfold saveHistory
      rw [if_neg (by simp [hskip])]
      dsimp only [Option.getD]
      rw [hs1len, if_neg hcap]
      congr 1
    have hprev : (s.history.take (s.historyIndex + 1) ++ [p'])[s.historyIndex]?
        = some cur := by
      rw [List.getElem?_append_left (by omega), hget_take]
    have hu : undo (saveHistory { s with pixels := p' } none) =
        ({ pixels := cur,
           history := s.history.take (s.historyIndex + 1) ++ [p'],
           historyIndex := s.historyIndex }, some cur) := by
      rw [hs1]
      unfold undo
      rw [if_pos (Nat.succ_pos _)]
      dsimp only
      rw [Nat.add_sub_cancel, hprev]
      rfl
    have hnxt : (s.history.take (s.historyIndex + 1) ++ [p'])[s.historyIndex + 1]?
        = some p' := by
      rw [List.getElem?_append_right (by omega), htl]
      simp
    refine ⟨?_, ?_⟩
    · rw [hu]; exact hinv
    · rw [hu]
      unfold redo
      rw [if_pos (by dsimp only; rw [hs1len]; omega)]
      dsimp only
      rw [hnxt]
      rfl

/-- A concrete one-cell edit used by the round-trip witness. -/
def demoEdit : PixelMap := [((0, 0), ⟨0, 0, "#000000"⟩)]

/-- Witness for C1 at the initial store with a one-cell edit. -/
theorem undo_redo_round_trip_witness :
    (initialStore.history[initialStore.historyIndex]? = some ([] : PixelMap)) ∧
      SameCells [] initialStore.pixels ∧
      sameSnapshot [] demoEdit = false ∧
      (SameCells (undo (saveHistory { initialStore with pixels := demoEdit } none)).1.pixels
          initialStore.pixels ∧
        (redo (undo (saveHistory { initialStore with pixels := demoEdit } none)).1).1.pixels
          = demoEdit) :=
  ⟨rfl, fun _ => rfl, by decide,
    undo_redo_round_trip initialStore [] demoEdit rfl (fun _ => rfl) (by decide)⟩

/-- Claim C10 -- undo and redo never change the history sequence itself:
its length and every stored snapshot are exactly preserved, in the stepping
cases as well as in the boundary no-op cases; in particular undoing never
discards the redo branch. -/
theorem undo_redo_preserve_history (s : StoreState) :
    (undo s).1.history = s.history ∧ (redo s).1.history = s.history := by
  constructor
  · unfold undo
    by_cases h : 0 < s.historyIndex <;> simp [h]
  · unfold redo
    by_cases h : s.historyIndex + 1 < s.history.length <;> simp [h]

/-- The four canvas tools. -/
inductive Tool
  | pen
  | eraser
  | eyedropper
  | bucket
  deriving Repr, DecidableEq

/-- Props and settings the canvas algorithms read: grid size, cell pixel
size, active color, active tool, brush size. -/
structure CanvasConfig where
  gridSize : Int
  pixelSize : Int
  currentColor : String
  currentTool : Tool
  brushSize : Int
  deriving Repr, DecidableEq

/-- getPixelCoords: integer-divide canvas coordinates by the cell pixel
size (Math.floor of the real quotient is Int.fdiv); null when the cell is
outside the grid. -/
def getPixelCoords (cfg : CanvasConfig) (x y : Int) : Option Key :=
  let col := Int.fdiv x cfg.pixelSize
  let row := Int.fdiv y cfg.pixelSize
  if 0 ≤ col ∧ col < cfg.gridSize ∧ 0 ≤ row ∧ row < cfg.gridSize then
    some (col, row)
  else none

/-- collectPixels: append one update for an in-bounds cell (null for the
eraser, pixel data with the current color otherwise); out-of-bounds cells
are skipped. -/
def collectPixels (cfg : CanvasConfig) (col row : Int) (acc : List Update) :
    List Update :=
  if col < 0 ∨ cfg.gridSize ≤ col ∨ row < 0 ∨ cfg.gridSize ≤ row then acc
  else
    acc ++ [((col, row),
      if cfg.currentTool = Tool.eraser then none
      else some ⟨col * cfg.pixelSize, row * cfg.pixelSize, cfg.currentColor⟩)]

/-- Offsets -radius..radius of the square brush footprint. -/
def brushOffsets (radius : Int) : List Int :=
  (List.range (2 * radius + 1).toNat).map (fun i => -radius + (i : Int))

/-- collectBrushPixels: collect the square neighborhood of radius
floor(brushSize / 2) around the center, row by row. -/
def collectBrushPixels (cfg : CanvasConfig) (centerCol centerRow : Int)
    (acc : List Update) : List Update :=
  let radius := Int.fdiv cfg.brushSize 2
  (brushOffsets radius).foldl
    (fun acc2 dy =>
      (brushOffsets radius).foldl
        (fun acc3 dx => collectPixels cfg (centerCol + dx) (centerRow + dy) acc3)
        acc2)
    acc

/-- Updates of a single click or single line point: plain cell for brush
size 1, brush footprint otherwise. -/
def pointUpdates (cfg : CanvasConfig) (col row : Int) (acc : List Update) :
    List Update :=
  if cfg.brushSize = 1 then collectPixels cfg col row acc
  else collectBrushPixels cfg col row acc

/-- Loop body state of drawLine: the Bresenham walk from (x, y) toward
(x1, y1), emitting each visited cell. The source loop has no fuel (it runs
until the endpoint is reached); fuel dx + dy is enough, which the line
theorems establish by reaching the endpoint within it. -/
def bresGo (x1 y1 sx sy dx dy : Int) :
    Nat → Int → Int → Int → List (Int × Int)
  | fuel, x, y, err =>
    (x, y) ::
      (if x = x1 ∧ y = y1 then []
       else
         match fuel with
         | 0 => []
         | fuel' + 1 =>
           let e2 := 2 * err
           let err1 := if e2 > -dy then err - dy else err
           let x' := if e2 > -dy then x + sx else x
           let err2 := if e2 < dx then err1 + dx else err1
           let y' := if e2 < dx then y + sy else y
           bresGo x1 y1 sx sy dx dy fuel' x' y' err2)

/-- The ordered cell sequence of drawLine's Bresenham loop between two
cells, inclusive of both endpoints. -/
def lineCells (x0 y0 x1 y1 : Int) : List (Int × Int) :=
  let dx := |x1 - x0|
  let dy := |y1 - y0|
  let sx : Int := if x0 < x1 then 1 else -1
  let sy : Int := if y0 < y1 then 1 else -1
  bresGo x1 y1 sx sy dx dy (dx + dy).toNat x0 y0 (dx - dy)

/-- drawLine's batched updates: every line cell expanded through the brush,
collected into one updates map. -/
def drawLine (cfg : CanvasConfig) (x0 y0 x1 y1 : Int) : List Update :=
  (lineCells x0 y0 x1 y1).foldl
    (fun acc p => pointUpdates cfg p.1 p.2 acc) []

/-- Eight-adjacency in the claim's sense: consecutive cells differ by at
most one in each coordinate. -/
def adj8 (p q : Int × Int) : Prop :=
  |q.1 - p.1| ≤ 1 ∧ |q.2 - p.2| ≤ 1

theorem bresGo_zero (x1 y1 sx sy dx dy x y err : Int) :
    bresGo x1 y1 sx sy dx dy 0 x y err =
      (x, y) :: (if x = x1 ∧ y = y1 then [] else []) := rfl

theorem bresGo_succ (x1 y1 sx sy dx dy : Int) (fuel : Nat) (x y err : Int) :
    bresGo x1 y1 sx sy dx dy (fuel + 1) x y err =
      (x, y) ::
        (if x = x1 ∧ y = y1 then []
         else
           bresGo x1 y1 sx sy dx dy fuel
             (if 2 * err > -dy then x + sx else x)
             (if 2 * err < dx then y + sy else y)
             (if 2 * err < dx then
                (if 2 * err > -dy then err - dy else err) + dx
              else (if 2 * err > -dy then err - dy else err))) := rfl

/-- The Bresenham loop is symmetric under swapping the two axes (and
negating the error term). -/
theorem bresGo_swap (x1 y1 sx sy dx dy : Int) (fuel : Nat) :
    ∀ (x y err : Int),
      bresGo x1 y1 sx sy dx dy fuel x y err =
        (bresGo y1 x1 sy sx dy dx fuel y x (-err)).map Prod.swap := by
  induction fuel with
  | zero =>
    intro x y err
    rw [bresGo_zero, bresGo_zero]
    by_cases hc : x = x1 ∧ y = y1
    · rw [if_pos hc, if_pos (show y = y1 ∧ x = x1 from ⟨hc.2, hc.1⟩)]
      rfl
    · rw [if_neg hc, if_neg (show ¬ (y = y1 ∧ x = x1) from fun h => hc ⟨h.2, h.1⟩)]
      rfl
  | succ fuel ih =>
    intro x y err
    rw [bresGo_succ, bresGo_succ]
    by_cases hc : x = x1 ∧ y = y1
    · rw [if_pos hc, if_pos (show y = y1 ∧ x = x1 from ⟨hc.2, hc.1⟩)]
      rfl
    · rw [if_neg hc, if_neg (show ¬ (y = y1 ∧ x = x1) from fun h => hc ⟨h.2, h.1⟩)]
      rw [List.map_cons]
      refine congrArg (List.cons (x, y)) ?_
      rw [ih]
      by_cases hu : 2 * err > -dy <;> by_cases hv : 2 * err < dx
      · have h3 : 2 * -err > -dx := by omega
        have h4 : 2 * -err < dy := by omega
        simp only [hu, hv, h3, h4, if_true, eq_self_iff_true, if_pos]
        rw [show -(err - dy + dx) = -err - dx + dy from by ring]
      · have h3 : ¬ 2 * -err > -dx := by omega
        have h4 : 2 * -err < dy := by omega
        simp only [hu, hv, h3, h4, if_true, if_false, eq_self_iff_true, if_pos, if_neg]
        rw [show -(err - dy) = -err + dy from by ring]
      · have h3 : 2 * -err > -dx := by omega
        have h4 : ¬ 2 * -err < dy := by omega
        simp only [hu, hv, h3, h4, if_true, if_false, eq_self_iff_true, if_pos, if_neg]
        rw [show -(err + dx) = -err - dx from by ring]
      · have h3 : ¬ 2 * -err > -dx := by omega
        have h4 : ¬ 2 * -err < dy := by omega
        simp only [hu, hv, h3, h4, if_false, if_neg]

theorem bresGo_stop (x1 y1 sx sy dx dy : Int) (fuel : Nat) (x y err : Int)
    (hx : x = x1) (hy : y = y1) :
    bresGo x1 y1 sx sy dx dy fuel x y err = [(x, y)] := by
  cases fuel with
  | zero => rw [bresGo_zero, if_pos ⟨hx, hy⟩]
  | succ fuel => rw [bresGo_succ, if_pos ⟨hx, hy⟩]

theorem bresA_b_eq_zero (dx dy b err : Int) (hdx0 : 0 < dx)
    (hb0 : 0 ≤ b) (hlow : dx - 2 * dy ≤ 2 * err)
    (hid : err = dx - dy - dx * dy + (dy - b) * dx) : b = 0 := by
  by_contra hbne
  have h1b : 1 ≤ b := by omega
  have hbd : dx ≤ b * dx := le_mul_of_one_le_left (le_of_lt hdx0) h1b
  nlinarith [hid, hlow, hbd]

theorem bresGoA (x1 y1 sx sy dx dy : Int) (hdy : 0 ≤ dy) (hdd : dy < dx)
    (hsx : sx = 1 ∨ sx = -1) (hsy : sy = 1 ∨ sy = -1) :
    ∀ (fuel : Nat) (x y err a b : Int),
      x1 - x = sx * a → y1 - y = sy * b →
      0 ≤ a → a ≤ dx → 0 ≤ b → b ≤ dy →
      dx - 2 * dy ≤ 2 * err → 2 * err ≤ 3 * dx - 2 * dy →
      err = dx - dy - (dx - a) * dy + (dy - b) * dx →
      a ≤ (fuel : Int) →
      (bresGo x1 y1 sx sy dx dy fuel x y err).length = a.toNat + 1 ∧
        (bresGo x1 y1 sx sy dx dy fuel x y err).head? = some (x, y) ∧
        (bresGo x1 y1 sx sy dx dy fuel x y err).getLast? = some (x1, y1) ∧
        List.Chain' adj8 (bresGo x1 y1 sx sy dx dy fuel x y err) := by
  intro fuel
  induction fuel with
  | zero =>
    intro x y err a b hx hy ha0 hadx hb0 hbdy hlow hup hid hfuel
    have hdx0 : 0 < dx := by omega
    have ha : a = 0 := by omega
    have hb : b = 0 := by
      refine bresA_b_eq_zero dx dy b err hdx0 hb0 hlow ?_
      rw [hid, ha]; ring
    subst ha; subst hb
    have hxx : x = x1 := by rcases hsx with h | h <;> (subst h; omega)
    have hyy : y = y1 := by rcases hsy with h | h <;> (subst h; omega)
    rw [bresGo_stop x1 y1 sx sy dx dy 0 x y err hxx hyy]
    refine ⟨by simp, rfl, ?_, List.chain'_singleton _⟩
    rw [hxx, hyy]; rfl
  | succ fuel ih =>
    intro x y err a b hx hy ha0 hadx hb0 hbdy hlow hup hid hfuel
    have hdx0 : 0 < dx := by omega
    by_cases ha : a = 0
    · have hb : b = 0 := by
        refine bresA_b_eq_zero dx dy b err hdx0 hb0 hlow ?_
        rw [hid, ha]; ring
      subst ha; subst hb
      have hxx : x = x1 := by rcases hsx with h | h <;> (subst h; omega)
      have hyy : y = y1 := by rcases hsy with h | h <;> (subst h; omega)
      rw [bresGo_stop x1 y1 sx sy dx dy (fuel + 1) x y err hxx hyy]
      refine ⟨by simp, rfl, ?_, List.chain'_singleton _⟩
      rw [hxx, hyy]; rfl
    · have ha1 : 1 ≤ a := by omega
      have hxne : ¬ (x = x1 ∧ y = y1) := by
        rintro ⟨h1, -⟩
        rw [h1] at hx
        rcases hsx with h | h <;> (subst h; omega)
      rw [bresGo_succ, if_neg hxne]
      have hu : 2 * err > -dy := by omega
      simp only [if_pos hu]
      have hsxabs : |sx| = 1 := by rcases hsx with h | h <;> simp [h]
      by_cases hv : 2 * err < dx
      · simp only [if_pos hv]
        have hb1 : 1 ≤ b := by
          by_contra hb'
          have hb00 : b = 0 := by omega
          have h2 : dx ≤ 2 * err := by
            nlinarith [hid, mul_nonneg (show (0:Int) ≤ a - 1 by omega) hdy]
          omega
        obtain ⟨hL1, hL2, hL3, hL4⟩ :=
          ih (x + sx) (y + sy) (err - dy + dx) (a - 1) (b - 1)
            (by linear_combination hx) (by linear_combination hy)
            (by omega) (by omega) (by omega) (by omega)
            (by omega) (by omega) (by linear_combination hid) (by push_cast at hfuel ⊢; omega)
        refine ⟨?_, rfl, ?_, ?_⟩
        · simp only [List.length_cons, hL1]
          omega
        · have hne : bresGo x1 y1 sx sy dx dy fuel (x + sx) (y + sy) (err - dy + dx) ≠ [] := by
            intro h
            rw [h] at hL2
            cases hL2
          cases hL : bresGo x1 y1 sx sy dx dy fuel (x + sx) (y + sy) (err - dy + dx) with
          | nil => exact absurd hL hne
          | cons z t =>
            rw [hL] at hL3
            rw [List.getLast?_cons_cons, hL3]
        · rw [List.chain'_cons']
          refine ⟨?_, hL4⟩
          intro p hp
          rw [hL2] at hp
          simp only [Option.mem_def, Option.some.injEq] at hp
          subst hp
          constructor
          · simpa using le_of_eq hsxabs
          · have : |(y + sy) - y| = 1 := by
              rcases hsy with h | h <;> (subst h; norm_num)
            simpa using le_of_eq this
      · simp only [if_neg hv]
        obtain ⟨hL1, hL2, hL3, hL4⟩ :=
          ih (x + sx) y (err - dy) (a - 1) b
            (by linear_combination hx) hy
            (by omega) (by omega) hb0 hbdy
            (by omega) (by omega) (by linear_combination hid) (by push_cast at hfuel ⊢; omega)
        refine ⟨?_, rfl, ?_, ?_⟩
        · simp only [List.length_cons, hL1]
          omega
        · have hne : bresGo x1 y1 sx sy dx dy fuel (x + sx) y (err - dy) ≠ [] := by
            intro h
            rw [h] at hL2
            cases hL2
          cases hL : bresGo x1 y1 sx sy dx dy fuel (x + sx) y (err - dy) with
          | nil => exact absurd hL hne
          | cons z t =>
            rw [hL] at hL3
            rw [List.getLast?_cons_cons, hL3]
        · rw [List.chain'_cons']
          refine ⟨?_, hL4⟩
          intro p hp
          rw [hL2] at hp
          simp only [Option.mem_def, Option.some.injEq] at hp
          subst hp
          constructor
          · simpa using le_of_eq hsxabs
          · simp

theorem bresGoD (x1 y1 sx sy d : Int) (hd : 0 ≤ d)
    (hsx : sx = 1 ∨ sx = -1) (hsy : sy = 1 ∨ sy = -1) :
    ∀ (fuel : Nat) (x y a : Int),
      x1 - x = sx * a → y1 - y = sy * a →
      0 ≤ a → a ≤ d →
      a ≤ (fuel : Int) →
      (bresGo x1 y1 sx sy d d fuel x y 0).length = a.toNat + 1 ∧
        (bresGo x1 y1 sx sy d d fuel x y 0).head? = some (x, y) ∧
        (bresGo x1 y1 sx sy d d fuel x y 0).getLast? = some (x1, y1) ∧
        List.Chain' adj8 (bresGo x1 y1 sx sy d d fuel x y 0) := by
  intro fuel
  induction fuel with
  | zero =>
    intro x y a hx hy ha0 had hfuel
    have ha : a = 0 := by omega
    subst ha
    have hxx : x = x1 := by rcases hsx with h | h <;> (subst h; omega)
    have hyy : y = y1 := by rcases hsy with h | h <;> (subst h; omega)
    rw [bresGo_stop x1 y1 sx sy d d 0 x y 0 hxx hyy]
    refine ⟨by simp, rfl, ?_, List.chain'_singleton _⟩
    rw [hxx, hyy]; rfl
  | succ fuel ih =>
    intro x y a hx hy ha0 had hfuel
    by_cases ha : a = 0
    · subst ha
      have hxx : x = x1 := by rcases hsx with h | h <;> (subst h; omega)
      have hyy : y = y1 := by rcases hsy with h | h <;> (subst h; omega)
      rw [bresGo_stop x1 y1 sx sy d d (fuel + 1) x y 0 hxx hyy]
      refine ⟨by simp, rfl, ?_, List.chain'_singleton _⟩
      rw [hxx, hyy]; rfl
    · have ha1 : 1 ≤ a := by omega
      have hd1 : 1 ≤ d := by omega
      have hxne : ¬ (x = x1 ∧ y = y1) := by
        rintro ⟨h1, -⟩
        rw [h1] at hx
        rcases hsx with h | h <;> (subst h; omega)
      rw [bresGo_succ, if_neg hxne]
      have hu : 2 * (0 : Int) > -d := by omega
      have hv : 2 * (0 : Int) < d := by omega
      simp only [if_pos hu, if_pos hv]
      rw [show ((0 : Int) - d) + d = 0 from by ring]
      obtain ⟨hL1, hL2, hL3, hL4⟩ :=
        ih (x + sx) (y + sy) (a - 1)
          (by linear_combination hx) (by linear_combination hy)
          (by omega) (by omega) (by push_cast at hfuel ⊢; omega)
      refine ⟨?_, rfl, ?_, ?_⟩
      · simp only [List.length_cons, hL1]
        omega
      · have hne : bresGo x1 y1 sx sy d d fuel (x + sx) (y + sy) 0 ≠ [] := by
          intro h
          rw [h] at hL2
          cases hL2
        cases hL : bresGo x1 y1 sx sy d d fuel (x + sx) (y + sy) 0 with
        | nil => exact absurd hL hne
        | cons z t =>
          rw [hL] at hL3
          rw [List.getLast?_cons_cons, hL3]
      · rw [List.chain'_cons']
        refine ⟨?_, hL4⟩
        intro p hp
        rw [hL2] at hp
        simp only [Option.mem_def, Option.some.injEq] at hp
        subst hp
        constructor
        · have : |(x + sx) - x| = 1 := by
            rcases hsx with h | h <;> (subst h; norm_num)
          simpa using le_of_eq this
        · have : |(y + sy) - y| = 1 := by
            rcases hsy with h | h <;> (subst h; norm_num)
          simpa using le_of_eq this

/-- Claim C6 -- Line continuity: for every pair of cells, the Bresenham
walk of drawLine starts at the first cell, ends at the second, has length
max(|c1-c0|, |r1-r0|) + 1, and every pair of consecutive cells differs by
at most one in each coordinate (8-adjacency), so no slope leaves gaps. -/
theorem lineCells_spec (x0 y0 x1 y1 : Int) :
    (lineCells x0 y0 x1 y1).head? = some (x0, y0) ∧
      (lineCells x0 y0 x1 y1).getLast? = some (x1, y1) ∧
      (lineCells x0 y0 x1 y1).length = (max |x1 - x0| |y1 - y0|).toNat + 1 ∧
      List.Chain' adj8 (lineCells x0 y0 x1 y1) := by
  have hdx : 0 ≤ |x1 - x0| := abs_nonneg _
  have hdy : 0 ≤ |y1 - y0| := abs_nonneg _
  have hsx : (if x0 < x1 then (1 : Int) else -1) = 1 ∨
      (if x0 < x1 then (1 : Int) else -1) = -1 := by
    by_cases h : x0 < x1 <;> simp [h]
  have hsy : (if y0 < y1 then (1 : Int) else -1) = 1 ∨
      (if y0 < y1 then (1 : Int) else -1) = -1 := by
    by_cases h : y0 < y1 <;> simp [h]
  have hx : x1 - x0 = (if x0 < x1 then (1 : Int) else -1) * |x1 - x0| := by
    rcases abs_cases (x1 - x0) with ⟨h1, h2⟩ | ⟨h1, h2⟩ <;>
      by_cases h : x0 < x1 <;> simp [h, h1] <;> omega
  have hy : y1 - y0 = (if y0 < y1 then (1 : Int) else -1) * |y1 - y0| := by
    rcases abs_cases (y1 - y0) with ⟨h1, h2⟩ | ⟨h1, h2⟩ <;>
      by_cases h : y0 < y1 <;> simp [h, h1] <;> omega
  have hfuel : ((|x1 - x0| + |y1 - y0|).toNat : Int) = |x1 - x0| + |y1 - y0| := by
    omega
  have hL : lineCells x0 y0 x1 y1 =
      bresGo x1 y1 (if x0 < x1 then (1 : Int) else -1) (if y0 < y1 then (1 : Int) else -1)
        |x1 - x0| |y1 - y0| (|x1 - x0| + |y1 - y0|).toNat x0 y0 (|x1 - x0| - |y1 - y0|) := rfl
  rcases lt_trichotomy |y1 - y0| |x1 - x0| with hlt | heq | hgt
  · obtain ⟨h1, h2, h3, h4⟩ :=
      bresGoA x1 y1 (if x0 < x1 then (1 : Int) else -1) (if y0 < y1 then (1 : Int) else -1)
        |x1 - x0| |y1 - y0| hdy hlt hsx hsy
        (|x1 - x0| + |y1 - y0|).toNat x0 y0 (|x1 - x0| - |y1 - y0|) |x1 - x0| |y1 - y0|
        hx hy hdx le_rfl hdy le_rfl (by omega) (by omega) (by ring) (by omega)
    rw [hL]
    refine ⟨h2, h3, ?_, h4⟩
    rw [h1, max_eq_left (le_of_lt hlt)]
  · obtain ⟨h1, h2, h3, h4⟩ :=
      bresGoD x1 y1 (if x0 < x1 then (1 : Int) else -1) (if y0 < y1 then (1 : Int) else -1)
        |x1 - x0| hdx hsx hsy
        (|x1 - x0| + |x1 - x0|).toNat x0 y0 |x1 - x0|
        hx (by rw [heq] at hy; exact hy) hdx le_rfl (by omega)
    rw [hL, show |x1 - x0| - |y1 - y0| = 0 from by omega,
      show |y1 - y0| = |x1 - x0| from heq]
    refine ⟨h2, h3, ?_, h4⟩
    rw [h1, max_self]
  · have hswap := bresGo_swap x1 y1 (if x0 < x1 then (1 : Int) else -1)
      (if y0 < y1 then (1 : Int) else -1) |x1 - x0| |y1 - y0|
      (|x1 - x0| + |y1 - y0|).toNat x0 y0 (|x1 - x0| - |y1 - y0|)
    obtain ⟨h1, h2, h3, h4⟩ :=
      bresGoA y1 x1 (if y0 < y1 then (1 : Int) else -1) (if x0 < x1 then (1 : Int) else -1)
        |y1 - y0| |x1 - x0| hdx hgt hsy hsx
        (|x1 - x0| + |y1 - y0|).toNat y0 x0 (|y1 - y0| - |x1 - x0|) |y1 - y0| |x1 - x0|
        hy hx hdy le_rfl hdx le_rfl (by omega) (by omega) (by ring) (by omega)
    rw [hL, hswap, show -(|x1 - x0| - |y1 - y0|) = |y1 - y0| - |x1 - x0| from by ring]
    refine ⟨?_, ?_, ?_, ?_⟩
    · rw [List.head?_map, h2]
      rfl
    · rw [List.getLast?_map, h3]
      rfl
    · rw [List.length_map, h1, max_eq_right (le_of_lt hgt)]
    · rw [List.chain'_map]
      refine h4.imp ?_
      intro p q hpq
      exact ⟨hpq.2, hpq.1⟩

/-- The color the flood fill observes at a cell: getPixelAt(...)?.color ||
null, which coerces both a missing entry and an empty-string color to null. -/
def colorAt (m : PixelMap) (k : Key) : Option String :=
  match mapGet m k with
  | some v => if v.color = "" then none else some v.color
  | none => none

/-- The four neighbors pushed by the flood fill, in push order. -/
def neighborsOf (k : Key) : List Key :=
  [(k.1 + 1, k.2), (k.1 - 1, k.2), (k.1, k.2 + 1), (k.1, k.2 - 1)]

/-- A cell is inside the square grid. -/
def inB (g : Int) (k : Key) : Prop :=
  0 ≤ k.1 ∧ k.1 < g ∧ 0 ≤ k.2 ∧ k.2 < g

instance (g : Int) (k : Key) : Decidable (inB g k) := by
  unfold inB
  infer_instance

/-- The in-bounds cells as a finite set (used to bound the search). -/
def cellsFin (g : Int) : Finset Key :=
  ((Finset.range g.toNat) ×ˢ (Finset.range g.toNat)).image
    (fun p => ((p.1 : Int), (p.2 : Int)))

theorem mem_cellsFin (g : Int) (k : Key) : k ∈ cellsFin g ↔ inB g k := by
  unfold cellsFin inB
  constructor
  · intro h
    simp only [Finset.mem_image, Finset.mem_product, Finset.mem_range] at h
    obtain ⟨⟨a, b⟩, ⟨ha, hb⟩, hk⟩ := h
    cases hk
    constructor
    · exact Int.natCast_nonneg a
    refine ⟨?_, Int.natCast_nonneg b, ?_⟩ <;> omega
  · rintro ⟨h1, h2, h3, h4⟩
    simp only [Finset.mem_image, Finset.mem_product, Finset.mem_range]
    refine ⟨(k.1.toNat, k.2.toNat), ⟨by omega, by omega⟩, ?_⟩
    have hk1 : ((k.1.toNat : Int), (k.2.toNat : Int)) = (k.1, k.2) := by
      rw [Int.toNat_of_nonneg h1, Int.toNat_of_nonneg h3]
    rw [hk1]

/-- The pixel data a flood fill writes at a cell. -/
def mkFillPixel (ps : Int) (F : String) (k : Key) : PixelData :=
  ⟨k.1 * ps, k.2 * ps, F⟩

/-- Loop state of the flood fill BFS: pending queue, visited set, working
copy of the raster, and the accumulated updates map. -/
structure FillSt where
  queue : List Key
  visited : Finset Key
  newPixels : PixelMap
  updates : List Update

/-- The BFS while-loop of floodFill: pop from the front; skip a cell that
is out of bounds or visited, skip a cell whose current color does not match
the target, otherwise mark it visited, write the fill pixel into the
working raster and the updates map, and push its four neighbors. The source
loop needs no fuel; this terminates because each visit shrinks the set of
unvisited in-bounds cells. -/
def bfsLoop (g ps : Int) (F : String) (t : Option String) (st : FillSt) : FillSt :=
  match hq : st.queue with
  | [] => st
  | k :: rest =>
    if hskip : k.1 < 0 ∨ g ≤ k.1 ∨ k.2 < 0 ∨ g ≤ k.2 ∨ k ∈ st.visited then
      bfsLoop g ps F t { st with queue := rest }
    else if hcol : ¬ (colorAt st.newPixels k = t) then
      bfsLoop g ps F t { st with queue := rest }
    else
      bfsLoop g ps F t
        { queue := rest ++ neighborsOf k,
          visited := insert k st.visited,
          newPixels := mapSet st.newPixels k (mkFillPixel ps F k),
          updates := st.updates ++ [(k, some (mkFillPixel ps F k))] }
termination_by ((cellsFin g \ st.visited).card) * 4 + st.queue.length
decreasing_by
  · rw [hq]
    simp only [List.length_cons]
    omega
  · rw [hq]
    simp only [List.length_cons]
    omega
  · rw [hq]
    have hkin : k ∈ cellsFin g \ st.visited := by
      rw [Finset.mem_sdiff, mem_cellsFin]
      unfold inB
      push_neg at hskip
      exact ⟨⟨hskip.1, hskip.2.1, hskip.2.2.1, hskip.2.2.2.1⟩, hskip.2.2.2.2⟩
    have hcard : (cellsFin g \ insert k st.visited).card
        = (cellsFin g \ st.visited).card - 1 := by
      rw [Finset.sdiff_insert, Finset.card_erase_of_mem hkin]
    have hpos : 1 ≤ (cellsFin g \ st.visited).card := Finset.card_pos.mpr ⟨k, hkin⟩
    rw [hcard]
    simp only [neighborsOf, List.length_cons, List.length_append, List.length_nil]
    omega

/-- floodFill acting on the store: read the target color at the seed, stop
if it already equals the fill color, otherwise run the BFS from the seed on
a copy of the raster, apply the collected updates through updatePixels, and
save one history snapshot. -/
def floodFillStore (g ps : Int) (F : String) (seed : Key) (s : StoreState) :
    StoreState :=
  let t := colorAt s.pixels seed
  if t = some F then s
  else
    let final := bfsLoop g ps F t
      { queue := [seed], visited := ∅, newPixels := s.pixels, updates := [] }
    saveHistory (updatePixelsStore s final.updates) none

theorem colorAt_congr (m m' : PixelMap) (k : Key)
    (h : mapGet m k = mapGet m' k) : colorAt m k = colorAt m' k := by
  unfold colorAt
  rw [h]

/-- One step of the fill region: move to a 4-neighbor that is in bounds and
carries the target color (as the fill observes colors). -/
def fillStep (p : PixelMap) (g : Int) (t : Option String) (a b : Key) : Prop :=
  b ∈ neighborsOf a ∧ inB g b ∧ colorAt p b = t

/-- The 4-connected region of target-colored cells reachable from the seed. -/
def fillReach (p : PixelMap) (g : Int) (t : Option String) (seed k : Key) : Prop :=
  Relation.ReflTransGen (fillStep p g t) seed k

/-- Loop invariant of the flood fill BFS over the original raster p. -/
structure FillInv (g ps : Int) (F : String) (t : Option String) (p : PixelMap)
    (seed : Key) (st : FillSt) : Prop where
  vis_inB : ∀ k ∈ st.visited, inB g k
  vis_region : ∀ k ∈ st.visited, fillReach p g t seed k
  queue_src : ∀ k ∈ st.queue, k = seed ∨ ∃ a ∈ st.visited, k ∈ neighborsOf a
  closure : ∀ a ∈ st.visited, ∀ b ∈ neighborsOf a, inB g b → colorAt p b = t →
      b ∈ st.visited ∨ b ∈ st.queue
  seed_tracked : inB g seed → colorAt p seed = t →
      seed ∈ st.visited ∨ seed ∈ st.queue
  unvisited_eq : ∀ k, k ∉ st.visited → mapGet st.newPixels k = mapGet p k
  visited_eq : ∀ k ∈ st.visited, mapGet st.newPixels k = some (mkFillPixel ps F k)
  upd_char : ∀ k, updLast st.updates k =
      if k ∈ st.visited then some (some (mkFillPixel ps F k)) else none

theorem FillInv.skip1 {g ps : Int} {F : String} {t : Option String}
    {p : PixelMap} {seed k : Key} {rest : List Key} {vis : Finset Key}
    {np : PixelMap} {upd : List Update}
    (hinv : FillInv g ps F t p seed ⟨k :: rest, vis, np, upd⟩)
    (hskip : k.1 < 0 ∨ g ≤ k.1 ∨ k.2 < 0 ∨ g ≤ k.2 ∨ k ∈ vis) :
    FillInv g ps F t p seed ⟨rest, vis, np, upd⟩ := by
  have hk_to_vis : ∀ b, b = k → inB g b → b ∈ vis := by
    rintro b rfl hb
    rcases hskip with h | h | h | h | h
    · exact absurd hb.1 (by omega)
    · exact absurd hb.2.1 (by omega)
    · exact absurd hb.2.2.1 (by omega)
    · exact absurd hb.2.2.2 (by omega)
    · exact h
  refine ⟨hinv.vis_inB, hinv.vis_region, ?_, ?_, ?_, hinv.unvisited_eq,
    hinv.visited_eq, hinv.upd_char⟩
  · intro q hq
    exact hinv.queue_src q (List.mem_cons_of_mem _ hq)
  · intro a ha b hb hbB hbC
    rcases hinv.closure a ha b hb hbB hbC with h | h
    · exact Or.inl h
    · rcases List.mem_cons.mp h with h1 | h1
      · exact Or.inl (hk_to_vis b h1 hbB)
      · exact Or.inr h1
  · intro hsB hsC
    rcases hinv.seed_tracked hsB hsC with h | h
    · exact Or.inl h
    · rcases List.mem_cons.mp h with h1 | h1
      · exact Or.inl (hk_to_vis seed h1 hsB)
      · exact Or.inr h1

theorem FillInv.skip2 {g ps : Int} {F : String} {t : Option String}
    {p : PixelMap} {seed k : Key} {rest : List Key} {vis : Finset Key}
    {np : PixelMap} {upd : List Update}
    (hinv : FillInv g ps F t p seed ⟨k :: rest, vis, np, upd⟩)
    (hin : ¬ (k.1 < 0 ∨ g ≤ k.1 ∨ k.2 < 0 ∨ g ≤ k.2 ∨ k ∈ vis))
    (hcol : ¬ colorAt np k = t) :
    FillInv g ps F t p seed ⟨rest, vis, np, upd⟩ := by
  push_neg at hin
  have hknv : k ∉ vis := hin.2.2.2.2
  have hcolp : ¬ colorAt p k = t := by
    rw [← colorAt_congr np p k (hinv.unvisited_eq k hknv)]
    exact hcol
  refine ⟨hinv.vis_inB, hinv.vis_region, ?_, ?_, ?_, hinv.unvisited_eq,
    hinv.visited_eq, hinv.upd_char⟩
  · intro q hq
    exact hinv.queue_src q (List.mem_cons_of_mem _ hq)
  · intro a ha b hb hbB hbC
    rcases hinv.closure a ha b hb hbB hbC with h | h
    · exact Or.inl h
    · rcases List.mem_cons.mp h with h1 | h1
      · subst h1
        exact absurd hbC hcolp
      · exact Or.inr h1
  · intro hsB hsC
    rcases hinv.seed_tracked hsB hsC with h | h
    · exact Or.inl h
    · rcases List.mem_cons.mp h with h1 | h1
      · subst h1
        exact absurd hsC hcolp
      · exact Or.inr h1

theorem FillInv.visit {g ps : Int} {F : String} {t : Option String}
    {p : PixelMap} {seed k : Key} {rest : List Key} {vis : Finset Key}
    {np : PixelMap} {upd : List Update}
    (hinv : FillInv g ps F t p seed ⟨k :: rest, vis, np, upd⟩)
    (hin : ¬ (k.1 < 0 ∨ g ≤ k.1 ∨ k.2 < 0 ∨ g ≤ k.2 ∨ k ∈ vis))
    (hcol : colorAt np k = t) :
    FillInv g ps F t p seed
      ⟨rest ++ neighborsOf k, insert k vis,
        mapSet np k (mkFillPixel ps F k), upd ++ [(k, some (mkFillPixel ps F k))]⟩ := by
  push_neg at hin
  have hkB : inB g k := ⟨hin.1, hin.2.1, hin.2.2.1, hin.2.2.2.1⟩
  have hknv : k ∉ vis := hin.2.2.2.2
  have hcolp : colorAt p k = t := by
    rw [← colorAt_congr np p k (hinv.unvisited_eq k hknv)]
    exact hcol
  have hkreach : fillReach p g t seed k := by
    rcases hinv.queue_src k (List.mem_cons_self k rest) with h | ⟨a, ha, hn⟩
    · subst h
      exact Relation.ReflTransGen.refl
    · exact Relation.ReflTransGen.tail (hinv.vis_region a ha) ⟨hn, hkB, hcolp⟩
  refine ⟨?_, ?_, ?_, ?_, ?_, ?_, ?_, ?_⟩
  · intro q hq
    rcases Finset.mem_insert.mp hq with h | h
    · subst h; exact hkB
    · exact hinv.vis_inB q h
  · intro q hq
    rcases Finset.mem_insert.mp hq with h | h
    · subst h; exact hkreach
    · exact hinv.vis_region q h
  · intro q hq
    rcases List.mem_append.mp hq with h | h
    · rcases hinv.queue_src q (List.mem_cons_of_mem _ h) with h1 | ⟨a, ha, hn⟩
      · exact Or.inl h1
      · exact Or.inr ⟨a, Finset.mem_insert_of_mem ha, hn⟩
    · exact Or.inr ⟨k, Finset.mem_insert_self k vis, h⟩
  · intro a ha b hb hbB hbC
    rcases Finset.mem_insert.mp ha with h | h
    · subst h
      exact Or.inr (List.mem_append_right _ hb)
    · rcases hinv.closure a h b hb hbB hbC with h1 | h1
      · exact Or.inl (Finset.mem_insert_of_mem h1)
      · rcases List.mem_cons.mp h1 with h2 | h2
        · subst h2
          exact Or.inl (Finset.mem_insert_self b vis)
        · exact Or.inr (List.mem_append_left _ h2)
  · intro hsB hsC
    rcases hinv.seed_tracked hsB hsC with h | h
    · exact Or.inl (Finset.mem_insert_of_mem h)
    · rcases List.mem_cons.mp h with h1 | h1
      · subst h1
        exact Or.inl (Finset.mem_insert_self seed vis)
      · exact Or.inr (List.mem_append_left _ h1)
  · intro q hq
    rw [Finset.mem_insert] at hq
    push_neg at hq
    rw [mapGet_mapSet, if_neg hq.1]
    exact hinv.unvisited_eq q hq.2
  · intro q hq
    rcases Finset.mem_insert.mp hq with h | h
    · subst h
      rw [mapGet_mapSet, if_pos rfl]
    · have hne : ¬ q = k := fun hc => hknv (hc ▸ h)
      rw [mapGet_mapSet, if_neg hne]
      exact hinv.visited_eq q h
  · intro q
    rw [updLast_append_single]
    by_cases hqk : k = q
    · subst hqk
      rw [if_pos rfl, if_pos (Finset.mem_insert_self k vis)]
    · rw [if_neg hqk, hinv.upd_char q]
      dsimp only
      by_cases hq : q ∈ vis
      · rw [if_pos hq, if_pos (Finset.mem_insert_of_mem hq)]
      · rw [if_neg hq, if_neg (fun hc =>
          hq ((Finset.mem_insert.mp hc).resolve_left (fun h => hqk h.symm)))]

theorem bfsLoop_eq_nil (g ps : Int) (F : String) (t : Option String)
    (vis : Finset Key) (np : PixelMap) (upd : List Update) :
    bfsLoop g ps F t ⟨[], vis, np, upd⟩ = ⟨[], vis, np, upd⟩ := by
  rw [bfsLoop.eq_def]

theorem bfsLoop_eq_cons (g ps : Int) (F : String) (t : Option String)
    (k : Key) (rest : List Key) (vis : Finset Key) (np : PixelMap)
    (upd : List Update) :
    bfsLoop g ps F t ⟨k :: rest, vis, np, upd⟩ =
      if k.1 < 0 ∨ g ≤ k.1 ∨ k.2 < 0 ∨ g ≤ k.2 ∨ k ∈ vis then
        bfsLoop g ps F t ⟨rest, vis, np, upd⟩
      else if ¬ colorAt np k = t then
        bfsLoop g ps F t ⟨rest, vis, np, upd⟩
      else
        bfsLoop g ps F t
          ⟨rest ++ neighborsOf k, insert k vis,
            mapSet np k (mkFillPixel ps F k),
            upd ++ [(k, some (mkFillPixel ps F k))]⟩ := by
  rw [bfsLoop.eq_def]
  simp only [dite_eq_ite]

/-- The BFS preserves the invariant and drains its queue. -/
theorem bfsLoop_inv (g ps : Int) (F : String) (t : Option String)
    (p : PixelMap) (seed : Key) :
    ∀ st : FillSt, FillInv g ps F t p seed st →
      FillInv g ps F t p seed (bfsLoop g ps F t st) ∧
        (bfsLoop g ps F t st).queue = [] := by
  intro st
  induction st using bfsLoop.induct g ps F t with
  | case1 st hq =>
    intro hinv
    obtain ⟨q, vis, np, upd⟩ := st
    simp only at hq
    subst hq
    rw [bfsLoop_eq_nil]
    exact ⟨hinv, rfl⟩
  | case2 st k rest hq hskip ih =>
    intro hinv
    obtain ⟨q, vis, np, upd⟩ := st
    simp only at hq hskip ih hinv
    subst hq
    rw [bfsLoop_eq_cons, if_pos hskip]
    exact ih (hinv.skip1 hskip)
  | case3 st k rest hq hskip hcol ih =>
    intro hinv
    obtain ⟨q, vis, np, upd⟩ := st
    simp only at hq hskip hcol ih hinv
    subst hq
    rw [bfsLoop_eq_cons, if_neg hskip, if_pos hcol]
    exact ih (hinv.skip2 hskip hcol)
  | case4 st k rest hq hskip hcol ih =>
    intro hinv
    obtain ⟨q, vis, np, upd⟩ := st
    simp only at hq hskip hcol ih hinv
    subst hq
    rw [not_not] at hcol
    rw [bfsLoop_eq_cons, if_neg hskip, if_neg (by rw [not_not]; exact hcol)]
    exact ih (hinv.visit hskip hcol)

/-- The invariant at the start of the BFS. -/
theorem fillInv_init (g ps : Int) (F : String) (t : Option String)
    (p : PixelMap) (seed : Key) :
    FillInv g ps F t p seed ⟨[seed], ∅, p, []⟩ := by
  refine ⟨?_, ?_, ?_, ?_, ?_, ?_, ?_, ?_⟩
  · intro k hk
    simp at hk
  · intro k hk
    simp at hk
  · intro k hk
    rcases List.mem_cons.mp hk with h | h
    · exact Or.inl h
    · simp at h
  · intro a ha
    simp at ha
  · intro _ _
    exact Or.inr (List.mem_cons_self _ _)
  · intro k _
    rfl
  · intro k hk
    simp at hk
  · intro k
    simp [updLast]

/-- End-state of the whole fill search, from the invariant: the visited
set is exactly the 4-connected target-colored region reachable from an
in-bounds matching seed, and the updates record exactly the visited cells. -/
theorem bfsLoop_final (g ps : Int) (F : String) (t : Option String)
    (p : PixelMap) (seed : Key) :
    FillInv g ps F t p seed (bfsLoop g ps F t ⟨[seed], ∅, p, []⟩) ∧
      (bfsLoop g ps F t ⟨[seed], ∅, p, []⟩).queue = [] :=
  bfsLoop_inv g ps F t p seed _ (fillInv_init g ps F t p seed)

theorem bfsLoop_visited_iff (g ps : Int) (F : String) (t : Option String)
    (p : PixelMap) (seed : Key) (hB : inB g seed) (hC : colorAt p seed = t) :
    ∀ k : Key,
      k ∈ (bfsLoop g ps F t ⟨[seed], ∅, p, []⟩).visited ↔
        fillReach p g t seed k := by
  obtain ⟨hinv, hq⟩ := bfsLoop_final g ps F t p seed
  intro k
  constructor
  · exact hinv.vis_region k
  · intro hreach
    have hseed : seed ∈ (bfsLoop g ps F t ⟨[seed], ∅, p, []⟩).visited := by
      rcases hinv.seed_tracked hB hC with h | h
      · exact h
      · rw [hq] at h
        simp at h
    induction hreach with
    | refl => exact hseed
    | tail hab hbc ih =>
      rcases hinv.closure _ ih _ hbc.1 hbc.2.1 hbc.2.2 with h | h
      · exact h
      · rw [hq] at h
        simp at h

theorem saveHistory_pixels (s : StoreState) (arg : Option PixelMap) :
    (saveHistory s arg).pixels = s.pixels := by
  unfold saveHistory
  by_cases hs : saveSkips s arg
  · rw [if_pos hs]
  · rw [if_neg (by simp [hs])]
    dsimp only
    split <;> rfl

theorem floodFillStore_pixels (g ps : Int) (F : String) (seed : Key)
    (s : StoreState) (hne : ¬ colorAt s.pixels seed = some F) :
    ∀ k : Key,
      mapGet (floodFillStore g ps F seed s).pixels k =
        if k ∈ (bfsLoop g ps F (colorAt s.pixels seed)
            ⟨[seed], ∅, s.pixels, []⟩).visited then
          some (mkFillPixel ps F k)
        else mapGet s.pixels k := by
  intro k
  unfold floodFillStore
  rw [if_neg hne]
  rw [saveHistory_pixels]
  unfold updatePixelsStore
  dsimp only
  rw [mapGet_applyUpdates]
  obtain ⟨hinv, -⟩ := bfsLoop_final g ps F (colorAt s.pixels seed) s.pixels seed
  rw [hinv.upd_char k]
  by_cases hk : k ∈ (bfsLoop g ps F (colorAt s.pixels seed)
      ⟨[seed], ∅, s.pixels, []⟩).visited
  · rw [if_pos hk, if_pos hk]
  · rw [if_neg hk, if_neg hk]

/-- Claim C4 -- Flood fill region correctness: for an in-bounds seed whose
observed color differs from the fill color, the fill sets to the fill color
exactly the cells of the 4-connected region (up/down/left/right neighbors,
in-bounds, same observed color as the seed) containing the seed, and every
cell outside that region keeps its previous binding. -/
theorem floodFill_region_exact (g ps : Int) (F : String) (seed : Key)
    (s : StoreState) (hB : inB g seed)
    (hdiff : ¬ colorAt s.pixels seed = some F) (k : Key) :
    (fillReach s.pixels g (colorAt s.pixels seed) seed k →
        mapGet (floodFillStore g ps F seed s).pixels k
          = some (mkFillPixel ps F k)) ∧
      (¬ fillReach s.pixels g (colorAt s.pixels seed) seed k →
        mapGet (floodFillStore g ps F seed s).pixels k = mapGet s.pixels k) := by
  have hvis := bfsLoop_visited_iff g ps F (colorAt s.pixels seed) s.pixels seed hB rfl k
  have hpx := floodFillStore_pixels g ps F seed s hdiff k
  constructor
  · intro hreach
    rw [hpx, if_pos (hvis.mpr hreach)]
  · intro hnreach
    rw [hpx, if_neg (fun hc => hnreach (hvis.mp hc))]

/-- Witness for C4: an empty 2x2 grid filled from the seed (0,0); the cell
(1,1) lies in the region and receives the fill pixel. -/
theorem floodFill_region_exact_witness :
    (inB 2 ((0 : Int), (0 : Int)) ∧
        ¬ colorAt initialStore.pixels (0, 0) = some "#00ff00") ∧
      ((fillReach initialStore.pixels 2 (colorAt initialStore.pixels (0, 0)) (0, 0) (1, 1) →
          mapGet (floodFillStore 2 20 "#00ff00" (0, 0) initialStore).pixels (1, 1)
            = some (mkFillPixel 20 "#00ff00" (1, 1))) ∧
        (¬ fillReach initialStore.pixels 2 (colorAt initialStore.pixels (0, 0)) (0, 0) (1, 1) →
          mapGet (floodFillStore 2 20 "#00ff00" (0, 0) initialStore).pixels (1, 1)
            = mapGet initialStore.pixels (1, 1))) :=
  ⟨⟨by decide, by decide⟩,
    floodFill_region_exact 2 20 "#00ff00" (0, 0) initialStore (by decide) (by decide) (1, 1)⟩

/-- Claim C9 -- Flood fill never unsets a cell: every cell set before a
fill call is still set after it, for every seed, fill color and store,
because the fill only ever writes color entries, never removals. -/
theorem floodFill_never_unsets (g ps : Int) (F : String) (seed : Key)
    (s : StoreState) (k : Key) (v : PixelData)
    (hset : mapGet s.pixels k = some v) :
    ∃ w : PixelData, mapGet (floodFillStore g ps F seed s).pixels k = some w := by
  by_cases hguard : colorAt s.pixels seed = some F
  · refine ⟨v, ?_⟩
    unfold floodFillStore
    rw [if_pos hguard]
    exact hset
  · rw [floodFillStore_pixels g ps F seed s hguard k]
    by_cases hk : k ∈ (bfsLoop g ps F (colorAt s.pixels seed)
        ⟨[seed], ∅, s.pixels, []⟩).visited
    · exact ⟨mkFillPixel ps F k, by rw [if_pos hk]⟩
    · exact ⟨v, by rw [if_neg hk]; exact hset⟩

/-- Witness for C9 at a one-cell raster. -/
theorem floodFill_never_unsets_witness :
    (mapGet [(((0 : Int), (0 : Int)), ⟨0, 0, "#ff0000"⟩)] (0, 0)
        = some (⟨0, 0, "#ff0000"⟩ : PixelData)) ∧
      ∃ w : PixelData,
        mapGet (floodFillStore 2 20 "#00ff00" (1, 1)
            { pixels := [(((0 : Int), (0 : Int)), ⟨0, 0, "#ff0000"⟩)],
              history := [[(((0 : Int), (0 : Int)), ⟨0, 0, "#ff0000"⟩)]],
              historyIndex := 0 }).pixels (0, 0) = some w :=
  ⟨by decide,
    floodFill_never_unsets 2 20 "#00ff00" (1, 1) _ (0, 0) ⟨0, 0, "#ff0000"⟩ (by decide)⟩

theorem bfs_empty_grid1_eval :
    bfsLoop 1 20 "" none ⟨[((0 : Int), (0 : Int))], ∅, [], []⟩ =
      ⟨[], {((0 : Int), (0 : Int))},
        [(((0 : Int), (0 : Int)), ⟨0, 0, ""⟩)],
        [(((0 : Int), (0 : Int)), some ⟨0, 0, ""⟩)]⟩ := by
  rw [bfsLoop_eq_cons, if_neg (by decide), if_neg (by decide)]
  norm_num [neighborsOf, mapSet, mkFillPixel]
  rw [bfsLoop_eq_cons, if_pos (by decide)]
  rw [bfsLoop_eq_cons, if_pos (by decide)]
  rw [bfsLoop_eq_cons, if_pos (by decide)]
  rw [bfsLoop_eq_cons, if_pos (by decide)]
  rw [bfsLoop_eq_nil]

/-- Counterexample to C5 as stated: filling with the empty-string color at
an unset seed (the claim's seed-unset, fill-unset case, since the code
coerces the empty string to null) is NOT a no-op: on an empty 1x1 grid it
inserts a cell and pushes a history entry. -/
theorem fill_idempotent_counterexample :
    colorAt initialStore.pixels ((0 : Int), (0 : Int)) = none ∧
      (floodFillStore 1 20 "" ((0 : Int), (0 : Int)) initialStore).pixels
        ≠ initialStore.pixels ∧
      (floodFillStore 1 20 "" ((0 : Int), (0 : Int)) initialStore).history.length
        ≠ initialStore.history.length := by
  have heval : floodFillStore 1 20 "" ((0 : Int), (0 : Int)) initialStore =
      { pixels := [(((0 : Int), (0 : Int)), ⟨0, 0, ""⟩)],
        history := [[], [(((0 : Int), (0 : Int)), ⟨0, 0, ""⟩)]],
        historyIndex := 1 } := by
    unfold floodFillStore
    rw [if_neg (by decide)]
    dsimp only
    rw [show colorAt initialStore.pixels ((0 : Int), (0 : Int)) = none from rfl]
    rw [show initialStore.pixels = ([] : PixelMap) from rfl]
    rw [bfs_empty_grid1_eval]
    decide
  refine ⟨rfl, ?_, ?_⟩
  · rw [heval]
    decide
  · rw [heval]
    decide

/-- Claim C5, amended -- Idempotent fill: for every store, seed and
NON-EMPTY fill color, calling the flood fill when the cell at the seed
already holds exactly that color returns with the store completely
unchanged: raster, history and index are identical, and no history entry is
pushed. (The empty-string fill color must be excluded: the source coerces
it to null, so it never compares equal to a stored color and the guard is
bypassed, as the counterexample shows.) -/
theorem fill_idempotent_amended (g ps : Int) (F : String) (seed : Key)
    (s : StoreState) (v : PixelData) (hF : ¬ F = "")
    (hget : mapGet s.pixels seed = some v) (hcol : v.color = F) :
    floodFillStore g ps F seed s = s := by
  unfold floodFillStore
  rw [if_pos ?_]
  unfold colorAt
  rw [hget]
  show (if v.color = "" then none else some v.color) = some F
  rw [hcol, if_neg hF]

/-- Witness for the amended C5 at a one-cell raster. -/
theorem fill_idempotent_amended_witness :
    (¬ "#ff0000" = "" ∧
        mapGet [(((0 : Int), (0 : Int)), ⟨0, 0, "#ff0000"⟩)] (0, 0)
          = some (⟨0, 0, "#ff0000"⟩ : PixelData) ∧
        (⟨0, 0, "#ff0000"⟩ : PixelData).color = "#ff0000") ∧
      floodFillStore 3 20 "#ff0000" (0, 0)
          { pixels := [(((0 : Int), (0 : Int)), ⟨0, 0, "#ff0000"⟩)],
            history := [[(((0 : Int), (0 : Int)), ⟨0, 0, "#ff0000"⟩)]],
            historyIndex := 0 } =
        { pixels := [(((0 : Int), (0 : Int)), ⟨0, 0, "#ff0000"⟩)],
          history := [[(((0 : Int), (0 : Int)), ⟨0, 0, "#ff0000"⟩)]],
          historyIndex := 0 } :=
  ⟨⟨by decide, by decide, by decide⟩,
    fill_idempotent_amended 3 20 "#ff0000" (0, 0) _ ⟨0, 0, "#ff0000"⟩
      (by decide) (by decide) (by decide)⟩

/-- State of the canvas component around the store: the drawing flag and
the last stroke position, alongside the store itself. -/
structure CanvasState where
  store : StoreState
  isDrawing : Bool
  lastPos : Option Key
  deriving Repr, DecidableEq

/-- handleMouseDown, instrumented with the number of saveHistory calls the
handler performs: none for the eyedropper and for pen/eraser (which only
start the stroke and stamp the first point), one inside floodFill for the
bucket unless its same-color guard returns early. -/
def handleMouseDown (cfg : CanvasConfig) (cs : CanvasState) (x y : Int) :
    CanvasState × Nat :=
  match getPixelCoords cfg x y with
  | none => (cs, 0)
  | some coords =>
    match cfg.currentTool with
    | Tool.eyedropper => (cs, 0)
    | Tool.bucket =>
      ({ cs with store :=
          floodFillStore cfg.gridSize cfg.pixelSize cfg.currentColor coords cs.store },
        if colorAt cs.store.pixels coords = some cfg.currentColor then 0 else 1)
    | _ =>
      ({ store := updatePixelsStore cs.store (pointUpdates cfg coords.1 coords.2 []),
         isDrawing := true,
         lastPos := some coords }, 0)

/-- handleMouseMove, instrumented the same way: it never touches history. -/
def handleMouseMove (cfg : CanvasConfig) (cs : CanvasState) (x y : Int) :
    CanvasState × Nat :=
  if cs.isDrawing = false then (cs, 0)
  else
    match getPixelCoords cfg x y with
    | none => (cs, 0)
    | some coords =>
      match cs.lastPos with
      | some lp =>
        ({ cs with
            store := updatePixelsStore cs.store
              (drawLine cfg lp.1 lp.2 coords.1 coords.2),
            lastPos := some coords }, 0)
      | none =>
        ({ cs with
            store := updatePixelsStore cs.store (pointUpdates cfg coords.1 coords.2 []),
            lastPos := some coords }, 0)

/-- handleMouseUp: exactly one saveHistory call when a stroke was in
progress, then the drawing flag and last position are cleared. -/
def handleMouseUp (cs : CanvasState) : CanvasState × Nat :=
  if cs.isDrawing then
    ({ store := saveHistory cs.store none, isDrawing := false, lastPos := none }, 1)
  else
    ({ cs with isDrawing := false, lastPos := none }, 0)

/-- Process a list of pointer-move events, accumulating saveHistory calls. -/
def processMoves (cfg : CanvasConfig) : CanvasState → List (Int × Int) → CanvasState × Nat
  | cs, [] => (cs, 0)
  | cs, p :: rest =>
    let r1 := handleMouseMove cfg cs p.1 p.2
    let r2 := processMoves cfg r1.1 rest
    (r2.1, r1.2 + r2.2)

/-- The three saveHistory counts of one full stroke: at pointer-down,
during all pointer-moves, and at pointer-up. -/
def strokeCounts (cfg : CanvasConfig) (cs : CanvasState) (pos : Int × Int)
    (moves : List (Int × Int)) : Nat × Nat × Nat :=
  let r1 := handleMouseDown cfg cs pos.1 pos.2
  let r2 := processMoves cfg r1.1 moves
  let r3 := handleMouseUp r2.1
  (r1.2, r2.2, r3.2)

theorem handleMouseMove_no_snapshot (cfg : CanvasConfig) (cs : CanvasState)
    (x y : Int) :
    (handleMouseMove cfg cs x y).2 = 0 ∧
      (handleMouseMove cfg cs x y).1.isDrawing = cs.isDrawing := by
  unfold handleMouseMove
  by_cases hd : cs.isDrawing = false
  · rw [if_pos hd]
    exact ⟨rfl, rfl⟩
  · rw [if_neg hd]
    cases getPixelCoords cfg x y with
    | none => exact ⟨rfl, rfl⟩
    | some coords =>
      cases cs.lastPos with
      | some lp => exact ⟨rfl, rfl⟩
      | none => exact ⟨rfl, rfl⟩

theorem processMoves_no_snapshot (cfg : CanvasConfig) :
    ∀ (moves : List (Int × Int)) (cs : CanvasState),
      (processMoves cfg cs moves).2 = 0 ∧
        (processMoves cfg cs moves).1.isDrawing = cs.isDrawing := by
  intro moves
  induction moves with
  | nil => exact fun cs => ⟨rfl, rfl⟩
  | cons p rest ih =>
    intro cs
    obtain ⟨h1, h2⟩ := handleMouseMove_no_snapshot cfg cs p.1 p.2
    obtain ⟨h3, h4⟩ := ih (handleMouseMove cfg cs p.1 p.2).1
    unfold processMoves
    refine ⟨?_, ?_⟩
    · dsimp only
      rw [h1, h3]
    · dsimp only
      rw [h4, h2]

/-- Claim C3 -- Stroke atomicity: a pointer-down with tool pen or eraser at
a position inside the grid, followed by any number of pointer-move events
and a pointer-up, performs exactly one History snapshot, at pointer-up:
the down contributes zero, every move contributes zero, and the up
contributes exactly one, however many cells were touched. -/
theorem stroke_atomicity (cfg : CanvasConfig) (cs : CanvasState)
    (pos : Int × Int) (moves : List (Int × Int))
    (htool : cfg.currentTool = Tool.pen ∨ cfg.currentTool = Tool.eraser)
    (hhit : ¬ getPixelCoords cfg pos.1 pos.2 = none) :
    strokeCounts cfg cs pos moves = (0, 0, 1) := by
  unfold strokeCounts
  cases hco : getPixelCoords cfg pos.1 pos.2 with
  | none => exact absurd hco hhit
  | some coords =>
    have hdown : handleMouseDown cfg cs pos.1 pos.2 =
        ({ store := updatePixelsStore cs.store (pointUpdates cfg coords.1 coords.2 []),
           isDrawing := true,
           lastPos := some coords }, 0) := by
      unfold handleMouseDown
      rw [hco]
      rcases htool with h | h <;> rw [h]
    rw [hdown]
    obtain ⟨h3, h4⟩ := processMoves_no_snapshot cfg moves
      { store := updatePixelsStore cs.store (pointUpdates cfg coords.1 coords.2 []),
        isDrawing := true, lastPos := some coords }
    dsimp only
    rw [h3]
    unfold handleMouseUp
    rw [if_pos (by rw [h4])]

/-- Witness for C3: a pen stroke on a 4x4 grid with one move event. -/
theorem stroke_atomicity_witness :
    ((⟨4, 20, "#000000", Tool.pen, 1⟩ : CanvasConfig).currentTool = Tool.pen ∨
        (⟨4, 20, "#000000", Tool.pen, 1⟩ : CanvasConfig).currentTool = Tool.eraser) ∧
      (¬ getPixelCoords ⟨4, 20, "#000000", Tool.pen, 1⟩ 5 5 = none) ∧
      strokeCounts ⟨4, 20, "#000000", Tool.pen, 1⟩
          ⟨initialStore, false, none⟩ (5, 5) [(45, 25)] = (0, 0, 1) :=
  ⟨Or.inl rfl, by decide,
    stroke_atomicity ⟨4, 20, "#000000", Tool.pen, 1⟩ ⟨initialStore, false, none⟩
      (5, 5) [(45, 25)] (Or.inl rfl) (by decide)⟩

/-- One iteration of resizeCanvas's forEach: recover the grid coordinate of
a stored pixel by floor-dividing its pixel offsets by the old cell size,
keep it when that coordinate lies inside the new grid, rescaled to the new
cell size. -/
def resizeStep (oldPs newGrid newPs : Int) (acc : PixelMap)
    (e : Key × PixelData) : PixelMap :=
  let col := Int.fdiv e.2.x oldPs
  let row := Int.fdiv e.2.y oldPs
  if 0 ≤ col ∧ col < newGrid ∧ 0 ≤ row ∧ row < newGrid then
    mapSet acc (col, row) ⟨col * newPs, row * newPs, e.2.color⟩
  else acc

/-- resizeCanvas's effect on the raster: unchanged when empty (only the
size fields are updated), otherwise rebuilt entry by entry. -/
def resizePixels (m : PixelMap) (oldPs newGrid newPs : Int) : PixelMap :=
  if m.length = 0 then m
  else m.foldl (resizeStep oldPs newGrid newPs) []

/-- Raster well-formedness for a given grid: every binding's key is in
bounds and its pixel offsets are the key scaled by the cell size. -/
def WFPixels (m : PixelMap) (grid ps : Int) : Prop :=
  ∀ e ∈ m, 0 ≤ e.1.1 ∧ e.1.1 < grid ∧ 0 ≤ e.1.2 ∧ e.1.2 < grid ∧
    e.2.x = e.1.1 * ps ∧ e.2.y = e.1.2 * ps

instance (m : PixelMap) (grid ps : Int) : Decidable (WFPixels m grid ps) := by
  unfold WFPixels
  exact List.decidableBAll _ m

theorem mapGet_eq_some_mem (m : PixelMap) (k : Key) (v : PixelData)
    (h : mapGet m k = some v) : (k, v) ∈ m := by
  induction m with
  | nil => cases h
  | cons e rest ih =>
    unfold mapGet at h
    by_cases hek : e.1 = k
    · rw [if_pos hek] at h
      have hv : e.2 = v := by
        injection h
      have hkv : (k, v) = e := by
        rw [← hek, ← hv]
      rw [hkv]
      exact List.mem_cons_self _ _
    · rw [if_neg hek] at h
      exact List.mem_cons_of_mem _ (ih h)

theorem mem_mapSet (m : PixelMap) (k : Key) (v : PixelData)
    (e : Key × PixelData) (h : e ∈ mapSet m k v) : e = (k, v) ∨ e ∈ m := by
  unfold mapSet at h
  by_cases hmem : m.any (fun e => e.1 = k)
  · rw [if_pos hmem] at h
    obtain ⟨w, hw, hwe⟩ := List.mem_map.mp h
    by_cases hwk : w.1 = k
    · rw [if_pos hwk] at hwe
      exact Or.inl hwe.symm
    · rw [if_neg hwk] at hwe
      exact Or.inr (hwe ▸ hw)
  · rw [if_neg hmem] at h
    rcases List.mem_append.mp h with h1 | h1
    · exact Or.inr h1
    · rcases List.mem_cons.mp h1 with h2 | h2
      · exact Or.inl h2
      · simp at h2

theorem resize_fold_untouched (oldPs newGrid newPs oldGrid : Int)
    (hps : 0 < oldPs) :
    ∀ (l : List (Key × PixelData)) (acc : PixelMap) (k : Key),
      WFPixels l oldGrid oldPs → (∀ e ∈ l, ¬ e.1 = k) →
      mapGet (l.foldl (resizeStep oldPs newGrid newPs) acc) k = mapGet acc k := by
  intro l
  induction l with
  | nil => intro acc k _ _; rfl
  | cons e rest ih =>
    intro acc k hwf hne
    have hwe := hwf e (List.mem_cons_self _ _)
    have hcol : Int.fdiv e.2.x oldPs = e.1.1 := by
      rw [hwe.2.2.2.2.1, Int.mul_fdiv_cancel _ (ne_of_gt hps)]
    have hrow : Int.fdiv e.2.y oldPs = e.1.2 := by
      rw [hwe.2.2.2.2.2, Int.mul_fdiv_cancel _ (ne_of_gt hps)]
    have hstep : List.foldl (resizeStep oldPs newGrid newPs) acc (e :: rest)
        = List.foldl (resizeStep oldPs newGrid newPs)
            (resizeStep oldPs newGrid newPs acc e) rest := rfl
    rw [hstep, ih _ _ (fun w hw => hwf w (List.mem_cons_of_mem _ hw))
      (fun w hw => hne w (List.mem_cons_of_mem _ hw))]
    unfold resizeStep
    rw [hcol, hrow]
    dsimp only
    split
    · rw [mapGet_mapSet]
      rw [if_neg ?_]
      intro hc
      exact hne e (List.mem_cons_self _ _) (by rw [hc])
    · rfl

/-- Keys written by the resize fold stay inside the new grid. -/
theorem resize_fold_bounded (oldPs newGrid newPs : Int) :
    ∀ (l : List (Key × PixelData)) (acc : PixelMap),
      (∀ e ∈ acc, 0 ≤ e.1.1 ∧ e.1.1 < newGrid ∧ 0 ≤ e.1.2 ∧ e.1.2 < newGrid) →
      ∀ e ∈ l.foldl (resizeStep oldPs newGrid newPs) acc,
        0 ≤ e.1.1 ∧ e.1.1 < newGrid ∧ 0 ≤ e.1.2 ∧ e.1.2 < newGrid := by
  intro l
  induction l with
  | nil => intro acc hacc; exact hacc
  | cons w rest ih =>
    intro acc hacc
    refine ih _ ?_
    intro e he
    unfold resizeStep at he
    dsimp only at he
    split at he
    · next hb =>
      rcases mem_mapSet _ _ _ _ he with h1 | h1
      · rw [h1]
        exact ⟨hb.1, hb.2.1, hb.2.2.1, hb.2.2.2⟩
      · exact hacc e h1
    · exact hacc e he

theorem resize_fold_present (oldPs newGrid newPs oldGrid : Int)
    (hps : 0 < oldPs) :
    ∀ (l : List (Key × PixelData)) (acc : PixelMap) (c r : Int) (v : PixelData),
      WFPixels l oldGrid oldPs → (l.map Prod.fst).Nodup →
      mapGet l (c, r) = some v →
      0 ≤ c → c < newGrid → 0 ≤ r → r < newGrid →
      mapGet (l.foldl (resizeStep oldPs newGrid newPs) acc) (c, r)
        = some ⟨c * newPs, r * newPs, v.color⟩ := by
  intro l
  induction l with
  | nil =>
    intro acc c r v _ _ hget
    cases hget
  | cons e rest ih =>
    intro acc c r v hwf hnd hget hc0 hcn hr0 hrn
    have hwe := hwf e (List.mem_cons_self _ _)
    have hcol : Int.fdiv e.2.x oldPs = e.1.1 := by
      rw [hwe.2.2.2.2.1, Int.mul_fdiv_cancel _ (ne_of_gt hps)]
    have hrow : Int.fdiv e.2.y oldPs = e.1.2 := by
      rw [hwe.2.2.2.2.2, Int.mul_fdiv_cancel _ (ne_of_gt hps)]
    have hstep : List.foldl (resizeStep oldPs newGrid newPs) acc (e :: rest)
        = List.foldl (resizeStep oldPs newGrid newPs)
            (resizeStep oldPs newGrid newPs acc e) rest := rfl
    rw [hstep]
    unfold mapGet at hget
    by_cases hek : e.1 = (c, r)
    · rw [if_pos hek] at hget
      have hv : e.2 = v := by injection hget
      have hkeys : ∀ w ∈ rest, ¬ w.1 = (c, r) := by
        intro w hw hc2
        have hmm : e.1 ∈ rest.map Prod.fst := by
          rw [hek, ← hc2]
          exact List.mem_map.mpr ⟨w, hw, rfl⟩
        exact (List.nodup_cons.mp hnd).1 hmm
      rw [resize_fold_untouched oldPs newGrid newPs oldGrid hps rest _ (c, r)
        (fun w hw => hwf w (List.mem_cons_of_mem _ hw)) hkeys]
      unfold resizeStep
      rw [hcol, hrow, hek]
      dsimp only
      rw [if_pos ⟨hc0, hcn, hr0, hrn⟩]
      rw [mapGet_mapSet, if_pos rfl, hv]
    · rw [if_neg hek] at hget
      exact ih _ c r v (fun w hw => hwf w (List.mem_cons_of_mem _ hw))
        (List.nodup_cons.mp hnd).2 hget hc0 hcn hr0 hrn

/-- Claim C7 -- Resize remap: under the raster invariant (keys in the old
grid, offsets equal to key times the old cell size, one binding per key,
positive cell size), every set cell at (c, r) with c, r below
min(oldSize, newSize) is still set after the resize at the same grid
coordinate with the same color (offsets rescaled), and every cell at or
beyond the new grid size in either axis is absent after the resize. -/
theorem resize_remap (m : PixelMap) (oldGrid oldPs newGrid newPs : Int)
    (hps : 0 < oldPs) (hwf : WFPixels m oldGrid oldPs)
    (hnd : (m.map Prod.fst).Nodup) :
    (∀ (c r : Int) (v : PixelData), mapGet m (c, r) = some v →
        c < min oldGrid newGrid → r < min oldGrid newGrid →
        mapGet (resizePixels m oldPs newGrid newPs) (c, r)
          = some ⟨c * newPs, r * newPs, v.color⟩) ∧
      (∀ c r : Int, newGrid ≤ c ∨ newGrid ≤ r →
        mapGet (resizePixels m oldPs newGrid newPs) (c, r) = none) := by
  unfold resizePixels
  by_cases hlen : m.length = 0
  · rw [if_pos hlen]
    rw [List.length_eq_zero] at hlen
    subst hlen
    constructor
    · intro c r v h
      cases h
    · intro c r _
      rfl
  · rw [if_neg hlen]
    constructor
    · intro c r v hget hc hr
      have hmem := mapGet_eq_some_mem m (c, r) v hget
      obtain ⟨h1, h2, h3, h4, -, -⟩ := hwf _ hmem
      have h1' : 0 ≤ c := h1
      have h3' : 0 ≤ r := h3
      exact resize_fold_present oldPs newGrid newPs oldGrid hps m [] c r v hwf hnd hget
        h1' (by omega) h3' (by omega)
    · intro c r hout
      cases hget : mapGet (m.foldl (resizeStep oldPs newGrid newPs) []) (c, r) with
      | none => rfl
      | some v =>
        have hmem := mapGet_eq_some_mem _ _ _ hget
        have hb := resize_fold_bounded oldPs newGrid newPs m []
          (by intro e he; cases he) _ hmem
        exfalso
        have hb1 : c < newGrid := hb.2.1
        have hb2 : r < newGrid := hb.2.2.2
        rcases hout with h | h <;> omega

/-- A concrete well-formed raster on a 3x3 grid with 20-pixel cells. -/
def demoRaster : PixelMap :=
  [(((0 : Int), (0 : Int)), ⟨0, 0, "#ff0000"⟩),
   (((2 : Int), (1 : Int)), ⟨40, 20, "#00ff00"⟩)]

/-- Witness for C7: resizing demoRaster from grid 3 (cell 20) to grid 2
(cell 10) keeps (0,0) with its color and drops (2,1). -/
theorem resize_remap_witness :
    ((0 : Int) < 20 ∧ WFPixels demoRaster 3 20 ∧ (demoRaster.map Prod.fst).Nodup) ∧
      mapGet (resizePixels demoRaster 20 2 10) (0, 0)
        = some ⟨0 * 10, 0 * 10, "#ff0000"⟩ ∧
      mapGet (resizePixels demoRaster 20 2 10) (2, 1) = none :=
  ⟨⟨by decide, by decide, by decide⟩,
    (resize_remap demoRaster 3 20 2 10 (by decide) (by decide) (by decide)).1
      0 0 ⟨0, 0, "#ff0000"⟩ (by decide) (by decide) (by decide),
    (resize_remap demoRaster 3 20 2 10 (by decide) (by decide) (by decide)).2
      2 1 (Or.inl (by decide))⟩

/-- Every key of an updates list lies inside the grid. -/
def KeysInB (g : Int) (us : List Update) : Prop :=
  ∀ u ∈ us, inB g u.1

theorem collectPixels_inB (cfg : CanvasConfig) (c r : Int) (acc : List Update)
    (hacc : KeysInB cfg.gridSize acc) :
    KeysInB cfg.gridSize (collectPixels cfg c r acc) := by
  unfold collectPixels
  split
  · exact hacc
  · next hb =>
    intro u hu
    rcases List.mem_append.mp hu with h | h
    · exact hacc u h
    · rcases List.mem_cons.mp h with h1 | h1
      · push_neg at hb
        rw [h1]
        exact ⟨hb.1, hb.2.1, hb.2.2.1, hb.2.2.2⟩
      · simp at h1

theorem brush_inner_inB (cfg : CanvasConfig) (c r dy : Int) :
    ∀ (l : List Int) (acc : List Update), KeysInB cfg.gridSize acc →
      KeysInB cfg.gridSize
        (l.foldl (fun acc3 dx => collectPixels cfg (c + dx) (r + dy) acc3) acc) := by
  intro l
  induction l with
  | nil => exact fun acc h => h
  | cons dx rest ih => exact fun acc h => ih _ (collectPixels_inB cfg _ _ acc h)

theorem collectBrushPixels_inB (cfg : CanvasConfig) (c r : Int)
    (acc : List Update) (hacc : KeysInB cfg.gridSize acc) :
    KeysInB cfg.gridSize (collectBrushPixels cfg c r acc) := by
  unfold collectBrushPixels
  dsimp only
  have houter : ∀ (lo : List Int) (acc : List Update), KeysInB cfg.gridSize acc →
      KeysInB cfg.gridSize
        (lo.foldl (fun acc2 dy =>
          (brushOffsets (Int.fdiv cfg.brushSize 2)).foldl
            (fun acc3 dx => collectPixels cfg (c + dx) (r + dy) acc3) acc2) acc) := by
    intro lo
    induction lo with
    | nil => exact fun acc2 h => h
    | cons dy rest ih =>
      exact fun acc2 h => ih _ (brush_inner_inB cfg c r dy _ acc2 h)
  exact houter _ acc hacc

theorem pointUpdates_inB (cfg : CanvasConfig) (c r : Int) (acc : List Update)
    (hacc : KeysInB cfg.gridSize acc) :
    KeysInB cfg.gridSize (pointUpdates cfg c r acc) := by
  unfold pointUpdates
  split
  · exact collectPixels_inB cfg c r acc hacc
  · exact collectBrushPixels_inB cfg c r acc hacc

theorem drawLine_inB (cfg : CanvasConfig) (x0 y0 x1 y1 : Int) :
    KeysInB cfg.gridSize (drawLine cfg x0 y0 x1 y1) := by
  unfold drawLine
  generalize lineCells x0 y0 x1 y1 = cells
  have hgen : ∀ (l : List (Int × Int)) (acc : List Update),
      KeysInB cfg.gridSize acc →
      KeysInB cfg.gridSize (l.foldl (fun acc p => pointUpdates cfg p.1 p.2 acc) acc) := by
    intro l
    induction l with
    | nil => exact fun acc h => h
    | cons p rest ih =>
      intro acc hacc
      exact ih _ (pointUpdates_inB cfg p.1 p.2 acc hacc)
  exact hgen cells [] (fun u hu => by cases hu)

theorem updLast_eq_none_of_inB (g : Int) (us : List Update) (k : Key)
    (hus : KeysInB g us) (hk : ¬ inB g k) : updLast us k = none := by
  induction us with
  | nil => rfl
  | cons u rest ih =>
    have hrest : updLast rest k = none :=
      ih (fun w hw => hus w (List.mem_cons_of_mem _ hw))
    have hc : updLast (u :: rest) k =
        match updLast rest k with
        | some r => some r
        | none => if u.1 = k then some u.2 else none := rfl
    rw [hc, hrest]
    rw [if_neg ?_]
    intro hc2
    exact hk (hc2 ▸ hus u (List.mem_cons_self _ _))

/-- Counterexample to C8 as stated: the store's updatePixels itself applies
whatever keys it is given with no bounds check, so a direct call with the
out-of-range cell (-1, 0) leaves an entry for that cell in the raster. -/
theorem out_of_range_counterexample :
    ¬ inB 32 ((-1 : Int), (0 : Int)) ∧
      mapGet (updatePixelsStore initialStore
          [(((-1 : Int), (0 : Int)), some ⟨-20, 0, "#000000"⟩)]).pixels (-1, 0)
        = some ⟨-20, 0, "#000000"⟩ := by
  constructor
  · decide
  · rfl

/-- Claim C8, amended -- Out-of-range cells are silently ignored by the
stroke and fill mutation paths and no path raises an error: updates built
by collectPixels and collectBrushPixels (single stamp and drawLine) contain
only in-bounds keys, so applying them leaves any out-of-range cell exactly
as it was, and the flood fill also never touches an out-of-range cell. The
low-level updatePixels itself, however, applies whatever keys it is given
(see the counterexample). -/
theorem out_of_range_ignored_amended (cfg : CanvasConfig)
    (cx cy x0 y0 x1 y1 : Int) (m : PixelMap) (g ps : Int) (F : String)
    (seed : Key) (s : StoreState) (k : Key)
    (h1 : ¬ inB cfg.gridSize k) (h2 : ¬ inB g k) :
    mapGet (applyUpdates m (pointUpdates cfg cx cy [])) k = mapGet m k ∧
      mapGet (applyUpdates m (drawLine cfg x0 y0 x1 y1)) k = mapGet m k ∧
      mapGet (floodFillStore g ps F seed s).pixels k = mapGet s.pixels k := by
  refine ⟨?_, ?_, ?_⟩
  · rw [mapGet_applyUpdates,
      updLast_eq_none_of_inB cfg.gridSize _ k
        (pointUpdates_inB cfg cx cy [] (fun u hu => by cases hu)) h1]
  · rw [mapGet_applyUpdates,
      updLast_eq_none_of_inB cfg.gridSize _ k (drawLine_inB cfg x0 y0 x1 y1) h1]
  · by_cases hguard : colorAt s.pixels seed = some F
    · unfold floodFillStore
      rw [if_pos hguard]
    · rw [floodFillStore_pixels g ps F seed s hguard k]
      obtain ⟨hinv, -⟩ :=
        bfsLoop_final g ps F (colorAt s.pixels seed) s.pixels seed
      rw [if_neg (fun hc => h2 (hinv.vis_inB k hc))]

/-- Witness for the amended C8 at the out-of-range cell (-1, 0). -/
theorem out_of_range_ignored_amended_witness :
    (¬ inB (⟨4, 20, "#000000", Tool.pen, 1⟩ : CanvasConfig).gridSize
        ((-1 : Int), (0 : Int)) ∧
      ¬ inB 4 ((-1 : Int), (0 : Int))) ∧
      (mapGet (applyUpdates demoRaster
            (pointUpdates ⟨4, 20, "#000000", Tool.pen, 1⟩ 0 0 [])) (-1, 0)
          = mapGet demoRaster (-1, 0) ∧
        mapGet (applyUpdates demoRaster
            (drawLine ⟨4, 20, "#000000", Tool.pen, 1⟩ 0 0 3 2)) (-1, 0)
          = mapGet demoRaster (-1, 0) ∧
        mapGet (floodFillStore 4 20 "#000000" (0, 0)
            { pixels := demoRaster, history := [demoRaster], historyIndex := 0 }).pixels
            (-1, 0)
          = mapGet demoRaster (-1, 0)) :=
  ⟨⟨by decide, by decide⟩,
    out_of_range_ignored_amended ⟨4, 20, "#000000", Tool.pen, 1⟩ 0 0 0 0 3 2
      demoRaster 4 20 "#000000" (0, 0)
      { pixels := demoRaster, history := [demoRaster], historyIndex := 0 }
      (-1, 0) (by decide) (by decide)⟩

end DrawPad
